import Mathlib

/-!
Verification of the crawler repository's indexer and search engine:
a shallow embedding of `src/indexer.py` and `src/search_engine.py`.

Modelling conventions:
* Python strings are `List Char` (`Str`); text handling is modelled at the
  ASCII level (the corpus and queries are ASCII): `str.lower()` is
  `Char.toLower` (the basic-latin case map), `str.isalpha` / the regex
  class `\w` are their ASCII fragments.
* Python numbers are `ℚ` (float arithmetic is modelled exactly;
  `math.log` is an uninterpreted parameter `ln : ℚ → ℚ`, since a
  transcendental function has no exact rational semantics — every
  statement below is either independent of `ln` or quantifies over it).
* Python dicts are modelled as functions (`defaultdict`) or association
  lists (`dict` with insertion order), Python sets as lists quotiented by
  the membership relation: set iteration order is unspecified in Python
  (string hashing is randomised per process), so any operation depending
  on it takes the enumeration order as an explicit argument.
* A Python `KeyError` (`doc['url']` on a document without a `url` key)
  is modelled by `Option`: `none` is an aborted computation.
-/

abbrev Str : Type := List Char

/-- ASCII whitespace, the characters `str.split()` splits on. -/
def isWsChar (c : Char) : Bool :=
  c == ' ' || c == Char.ofNat 9 || c == Char.ofNat 10 || c == Char.ofNat 13 ||
    c == Char.ofNat 11 || c == Char.ofNat 12

/-- The 32 characters of Python's `string.punctuation`. -/
def punctuationChars : List Char :=
  ['!', Char.ofNat 34, Char.ofNat 35, '$', '%', '&', Char.ofNat 39, '(', ')',
   '*', '+', ',', '-', '.', '/', ':', ';', '<', '=', '>', '?', '@', '[',
   Char.ofNat 92, ']', '^', '_', Char.ofNat 96, Char.ofNat 123, '|',
   Char.ofNat 125, Char.ofNat 126]

def isPunctChar (c : Char) : Bool := punctuationChars.contains c

/-- ASCII fragment of the regex class `\w`: letters, digits, underscore. -/
def isWordChar (c : Char) : Bool :=
  (97 ≤ c.toNat && c.toNat ≤ 122) || (65 ≤ c.toNat && c.toNat ≤ 90) ||
    (48 ≤ c.toNat && c.toNat ≤ 57) || c == '_'

/-- ASCII fragment of `str.isalpha` at the character level. -/
def isAlphaChar (c : Char) : Bool :=
  (97 ≤ c.toNat && c.toNat ≤ 122) || (65 ≤ c.toNat && c.toNat ≤ 90)

/-- Helper for `splitWs`: returns the (possibly empty) first
whitespace-free run of the string and the split of the remainder. -/
def splitWsCore : Str → Str × List Str
  | [] => ([], [])
  | c :: cs =>
    let p := splitWsCore cs
    if isWsChar c then ([], if p.1.isEmpty then p.2 else p.1 :: p.2)
    else (c :: p.1, p.2)

/-- Python `str.split()` with no argument: split on runs of whitespace,
dropping empty fragments. -/
def splitWs (s : Str) : List Str :=
  let p := splitWsCore s
  if p.1.isEmpty then p.2 else p.1 :: p.2

namespace Indexer

/-- The module-level `STOPWORDS` set of `src/indexer.py`. -/
def STOPWORDS : List Str :=
  ["a", "an", "and", "are", "as", "at", "be", "but", "by", "for", "if", "in",
   "into", "is", "it", "no", "not", "of", "on", "or", "such", "that", "the",
   "their", "then", "there", "these", "they", "this", "to", "was", "will",
   "with"].map String.toList

/-- Model of `tokenize` from `src/indexer.py`: lowercase, delete punctuation
(`str.translate` with `string.punctuation`), split on whitespace, drop
stopwords. -/
def tokenize (text : Str) : List Str :=
  let lowered := text.map Char.toLower
  let stripped := lowered.filter (fun c => !(isPunctChar c))
  (splitWs stripped).filter (fun t => !(STOPWORDS.contains t))

end Indexer

/-- Left-to-right scan implementing `re.findall(r'\b\w+(?:-\w+)*\b', s)`
over an ASCII string.  `cur` is the token currently being built, in
reverse.  A `-` extends the current token exactly when a word character
follows (the regex group `(?:-\w+)*`); any other non-word character — or
a `-` not followed by a word character — closes the current token. -/
def scanAux : Str → Str → List Str
  | [], cur => if cur.isEmpty then [] else [cur.reverse]
  | c :: cs, cur =>
    if isWordChar c then scanAux cs (c :: cur)
    else if c == '-' then
      if cur.isEmpty then scanAux cs []
      else match cs with
        | d :: _ =>
          if isWordChar d then scanAux cs ('-' :: cur)
          else cur.reverse :: scanAux cs []
        | [] => [cur.reverse]
    else if cur.isEmpty then scanAux cs []
    else cur.reverse :: scanAux cs []

/-- Model of `re.findall(r'\b\w+(?:-\w+)*\b', s)`: every maximal match of the
pattern, left to right. -/
def findallW (s : Str) : List Str := scanAux s []

namespace TextProcessor

/-- The NLTK English stopword list as consumed by
`src/search_engine.py`.  Entries containing an apostrophe (`don't`,
`isn't`, …) are omitted: the tokenizer's regex `\w+(?:-\w+)*` can never
produce a token containing an apostrophe and `isalpha` is checked before
stopword membership, so those entries are unreachable in the filter. -/
def STOPWORDS : List Str :=
  ["i", "me", "my", "myself", "we", "our", "ours", "ourselves", "you",
   "your", "yours", "yourself", "yourselves", "he", "him", "his",
   "himself", "she", "her", "hers", "herself", "it", "its", "itself",
   "they", "them", "their", "theirs", "themselves", "what", "which",
   "who", "whom", "this", "that", "these", "those", "am", "is", "are",
   "was", "were", "be", "been", "being", "have", "has", "had", "having",
   "do", "does", "did", "doing", "a", "an", "the", "and", "but", "if",
   "or", "because", "as", "until", "while", "of", "at", "by", "for",
   "with", "about", "against", "between", "into", "through", "during",
   "before", "after", "above", "below", "to", "from", "up", "down", "in",
   "out", "on", "off", "over", "under", "again", "further", "then",
   "once", "here", "there", "when", "where", "why", "how", "all", "any",
   "both", "each", "few", "more", "most", "other", "some", "such", "no",
   "nor", "not", "only", "own", "same", "so", "than", "too", "very", "s",
   "t", "can", "will", "just", "don", "should", "now", "d", "ll", "m",
   "o", "re", "ve", "y", "ain", "aren", "couldn", "didn", "doesn",
   "hadn", "hasn", "haven", "isn", "ma", "mightn", "mustn", "needn",
   "shan", "shouldn", "wasn", "weren", "won", "wouldn"].map String.toList

/-- Python `str.isalpha` (ASCII fragment): nonempty and all letters. -/
def isalphaStr (t : Str) : Bool := !t.isEmpty && t.all isAlphaChar

/-- Model of `TextProcessor.tokenize` from `src/search_engine.py`:
`re.findall(r'\b\w+(?:-\w+)*\b', text.lower())` filtered by `isalpha`
and NLTK stopword membership. -/
def tokenize (text : Str) : List Str :=
  (findallW (text.map Char.toLower)).filter
    (fun t => isalphaStr t && !(STOPWORDS.contains t))

end TextProcessor

/-- A product document, with the fields the indexer and the search
engine access.  Every field a Python `dict` may lack is an `Option`;
`product_reviews` models each review dict by its optional `rating`
entry (the only key the code reads). -/
structure Doc where
  url : Option Str
  title : Option Str
  description : Option Str
  brand : Option Str
  product_reviews : List (Option ℚ)

/-- The two text fields the index builders are invoked on. -/
inductive DocField
  | title
  | description
deriving DecidableEq

def Doc.getField (d : Doc) : DocField → Option Str
  | .title => d.title
  | .description => d.description

/-- Python `round(q, d)` modelled as rounding to the nearest multiple of
`10 ^ (-d)` (the tie direction of float `round` is immaterial to every
statement below, which only uses `|round — q| ≤ 1/2·10^(-d)`). -/
def roundTo (d : ℕ) (q : ℚ) : ℚ := (round (q * (10 ^ d : ℚ)) : ℚ) / (10 ^ d : ℚ)

namespace Indexer

/-- The body of the token loop of `create_inverted_index`:
`if doc['url'] not in index[token]: index[token].append(doc['url'])`. -/
def invTokenStep (u : Str) (index : Str → List Str) (token : Str) :
    Str → List Str :=
  fun t =>
    if t = token then (if u ∈ index t then index t else index t ++ [u])
    else index t

/-- The body of the document loop of `create_inverted_index`.
`doc['url']` is read inside the token loop, so a document with no `url`
aborts only if its tokenized field is nonempty. -/
def invStep (field : DocField) (index : Str → List Str) (doc : Doc) :
    Option (Str → List Str) :=
  (tokenize ((doc.getField field).getD [])).foldlM (fun index token =>
    match doc.url with
    | none => none
    | some u => some (invTokenStep u index token))
    index

/-- Model of `create_inverted_index` from `src/indexer.py`.  The
`defaultdict(list)` is a total function from token to URL list; a
document whose `url` key is missing makes `doc['url']` raise, which
aborts the build (`none`). -/
def create_inverted_index (data : List Doc) (field : DocField) :
    Option (Str → List Str) :=
  data.foldlM (invStep field) (fun _ => [])

/-- The body of the position loop of `create_positional_index`:
`index[token][doc['url']].append(pos)` for `(pos, token) = pt`. -/
def posTokenStep (u : Str) (index : Str → Str → List ℕ) (pt : ℕ × Str) :
    Str → Str → List ℕ :=
  fun t u' => if t = pt.2 ∧ u' = u then index t u' ++ [pt.1] else index t u'

/-- The body of the document loop of `create_positional_index`. -/
def posStep (field : DocField) (index : Str → Str → List ℕ) (doc : Doc) :
    Option (Str → Str → List ℕ) :=
  ((tokenize ((doc.getField field).getD [])).enum).foldlM (fun index pt =>
    match doc.url with
    | none => none
    | some u => some (posTokenStep u index pt))
    index

/-- Model of `create_positional_index` from `src/indexer.py`: for every
`(pos, token)` of `enumerate(tokens)`, append `pos` under
`(token, doc['url'])`. -/
def create_positional_index (data : List Doc) (field : DocField) :
    Option (Str → Str → List ℕ) :=
  data.foldlM (posStep field) (fun _ _ => [])

/-- One value of the reviews index built by `create_reviews_index`. -/
structure ReviewsEntry where
  total_reviews : ℕ
  average_score : Option ℚ
  last_score : Option ℚ
deriving DecidableEq

/-- The entry `create_reviews_index` stores for one document: the
ratings are the `rating` values of the reviews that carry one; with no
ratings the entry is the explicit no-data marker `(0, None, None)`,
otherwise count, `round(mean, 2)` and last rating. -/
def reviewsEntryOf (doc : Doc) : ReviewsEntry :=
  let ratings := doc.product_reviews.filterMap id
  if h : ratings = [] then ⟨0, none, none⟩
  else ⟨ratings.length,
        some (roundTo 2 (ratings.sum / (ratings.length : ℚ))),
        some (ratings.getLast h)⟩

/-- The body of the document loop of `create_reviews_index`:
`index[doc['url']] = {...}` (plain dict assignment — a later document
with the same URL overwrites).  `doc['url']` is read unconditionally,
so a document without `url` aborts the build. -/
def revStep (index : Str → Option ReviewsEntry) (doc : Doc) :
    Option (Str → Option ReviewsEntry) :=
  match doc.url with
  | none => none
  | some u => some (fun u' => if u' = u then some (reviewsEntryOf doc) else index u')

/-- Model of `create_reviews_index` from `src/indexer.py`. -/
def create_reviews_index (data : List Doc) :
    Option (Str → Option ReviewsEntry) :=
  data.foldlM revStep (fun _ => none)

end Indexer

namespace SearchEngine

/-- One value of the reviews index consumed by the search engine
(`indexes_fournis/reviews_index.json`): the code reads the keys
`mean_mark` and `total_reviews`. -/
structure ReviewData where
  mean_mark : ℚ
  total_reviews : ℕ
deriving DecidableEq

/-- The indexes loaded by `IndexLoader`, restricted to the fields the
scoring and filtering code reads.  `title_index`/`description_index`
map a token to the keys of its posting dict (`.keys()` and `len` are
all the code uses), `brand_index`/`origin_index` map a token to a URL
list. -/
structure EngineIndexes where
  title_index : Str → List Str
  description_index : Str → List Str
  brand_index : Str → List Str
  origin_index : Str → List Str
  reviews_index : Str → Option ReviewData
  origin_synonyms : List (Str × List Str)

/-- Insertion into a Python `set`, modelled on lists: a no-op when the
element is already present. -/
def setInsert (l : List Str) (t : Str) : List Str :=
  if t ∈ l then l else l ++ [t]

/-- Model of `TextProcessor.expand_with_synonyms` from `src/search_engine.py`:
start from `set(tokens)`; for every token and synonym-table entry
`(key, synonyms)`, if the token is the key or one of the synonyms, add
all the synonyms and the key. -/
def expand_with_synonyms (tokens : List Str)
    (synonyms_dict : List (Str × List Str)) : List Str :=
  let expanded_tokens := tokens.foldl setInsert []
  tokens.foldl (fun acc token =>
    synonyms_dict.foldl (fun acc kv =>
      if token = kv.1 ∨ token ∈ kv.2 then
        setInsert (kv.2.foldl setInsert acc) kv.1
      else acc) acc) expanded_tokens

/-- Model of `DocumentFilter.filter_any_token` from `src/search_engine.py`, as
the membership predicate of the resulting set: a URL is in the set iff
some query token finds it in the title, description, brand or origin
index. -/
def filter_any_token (indexes : EngineIndexes) (tokens : List Str)
    (u : Str) : Bool :=
  tokens.any (fun t =>
    decide (u ∈ indexes.title_index t) || decide (u ∈ indexes.description_index t) ||
    decide (u ∈ indexes.brand_index t) || decide (u ∈ indexes.origin_index t))

/-- The argument of `math.log` in `compute_bm25_score`:
`(N - doc_count + 0.5) / (doc_count + 0.5) + 1`. -/
def idfArg (n df : ℕ) : ℚ := ((n : ℚ) - (df : ℚ) + 1/2) / ((df : ℚ) + 1/2) + 1

/-- The `doc_count` of `compute_bm25_score`:
`len(title_index.get(token, {})) + len(description_index.get(token, {}))`. -/
def doc_count (indexes : EngineIndexes) (token : Str) : ℕ :=
  (indexes.title_index token).length + (indexes.description_index token).length

/-- Model of `BM25Ranker.compute_bm25_score` from `src/search_engine.py` with its
default `k1 = 1.5`, `b = 0.75` (no call site overrides them).
`math.log` is the uninterpreted parameter `ln`.  `self.products[doc_url]`
raises on a missing URL, hence the `Option`. -/
def compute_bm25_score (ln : ℚ → ℚ) (indexes : EngineIndexes)
    (products : List (Str × Doc)) (doc_url : Str)
    (query_tokens : List Str) : Option ℚ :=
  match products.lookup doc_url with
  | none => none
  | some doc =>
    let k1 : ℚ := 3/2
    let b : ℚ := 3/4
    let doc_text := (doc.title.getD []) ++ ' ' :: (doc.description.getD [])
    let doc_tokens := TextProcessor.tokenize doc_text
    let avg_doc_length : ℚ := 300
    let doc_length : ℚ := (doc_tokens.length : ℚ)
    some (query_tokens.foldl (fun score token =>
      let tf : ℚ := (doc_tokens.count token : ℚ)
      let dc := doc_count indexes token
      if dc = 0 then score
      else score + ln (idfArg products.length dc) *
        ((tf * (k1 + 1)) /
          (tf + k1 * (1 - b + b * (doc_length / avg_doc_length))))) 0)

/-- The score record built by `BM25Ranker.compute_final_score`. -/
structure Scores where
  bm25_score : ℚ
  exact_match_score : ℚ
  title_match_score : ℚ
  review_score : ℚ
  final_score : ℚ
deriving DecidableEq

/-- Python `s.lower().strip()`. -/
def lowerStrip (s : Str) : Str :=
  ((((s.map Char.toLower).dropWhile isWsChar).reverse).dropWhile isWsChar).reverse

/-- Model of `BM25Ranker.compute_final_score` from `src/search_engine.py`.
`sum(scores.values())` sums the four signal entries plus the initial
`final_score = 0`.  The inner `compute_bm25_score` performs the same
`self.products[doc_url]` lookup as this function, so inside the `some`
branch it cannot be `none` and `getD 0` is inert. -/
def compute_final_score (ln : ℚ → ℚ) (indexes : EngineIndexes)
    (products : List (Str × Doc)) (doc_url : Str) (query : Str)
    (query_tokens : List Str) : Option Scores :=
  match products.lookup doc_url with
  | none => none
  | some doc =>
    let bm25 : ℚ :=
      ((compute_bm25_score ln indexes products doc_url query_tokens).getD 0) * (2/5)
    let exact : ℚ :=
      if lowerStrip query = lowerStrip (doc.title.getD []) ∨
         lowerStrip query = lowerStrip (doc.brand.getD []) then 2 else 0
    let title_tokens := TextProcessor.tokenize (doc.title.getD [])
    let title_matches := query_tokens.countP (fun t => decide (t ∈ title_tokens))
    let titleScore : ℚ := (title_matches : ℚ) * (1/5)
    let review : ℚ :=
      match indexes.reviews_index doc_url with
      | none => 0
      | some review_data =>
        (review_data.mean_mark * (3/10) +
          ((min review_data.total_reviews 10 : ℕ) : ℚ) * (1/10)) * (3/10)
    some ⟨bm25, exact, titleScore, review, bm25 + exact + titleScore + review⟩

/-- Stable insertion of `x` into a list sorted descending by `key`:
`x` goes before the first element whose key is not larger.  -/
def sortInsert {α : Type} (key : α → ℚ) (x : α) : List α → List α
  | [] => [x]
  | y :: ys => if key y ≤ key x then x :: y :: ys else y :: sortInsert key x ys

/-- Stable descending sort by `key` — the model of Python's stable
`list.sort(key=..., reverse=True)`: equal-key elements keep the order
of the input list. -/
def sortDesc {α : Type} (key : α → ℚ) : List α → List α
  | [] => []
  | x :: xs => sortInsert key x (sortDesc key xs)

/-- The ranking step of the `__main__` query loop: for every candidate
URL — in the (unspecified) iteration order `matching_order` of the
`matching_docs` set — compute the final score, pair the URL with
`round(final_score, 3)`, and sort descending by that rounded score
(Python's sort is stable, so ties keep iteration order). -/
def rank_results (ln : ℚ → ℚ) (indexes : EngineIndexes)
    (products : List (Str × Doc)) (query : Str) (query_tokens : List Str)
    (matching_order : List Str) : Option (List (Str × ℚ)) :=
  (matching_order.mapM (fun u =>
    (compute_final_score ln indexes products u query query_tokens).map
      (fun s => (u, roundTo 3 s.final_score)))).map
    (sortDesc (fun p => p.2))

/-- The inner (synonym-table) fold of `expand_with_synonyms`, for one
token. -/
private def synStep (token : Str) (acc : List Str)
    (dict : List (Str × List Str)) : List Str :=
  dict.foldl (fun acc kv =>
    if token = kv.1 ∨ token ∈ kv.2 then
      setInsert (kv.2.foldl setInsert acc) kv.1
    else acc) acc

end SearchEngine

/-- Modelled from the spec's words for C4: "df = number of distinct
documents containing the term in the relevant field (a document
containing the token is counted once)". -/
def spec_df (data : List Doc) (field : DocField) (t : Str) : ℕ :=
  data.countP (fun d => decide (t ∈ Indexer.tokenize ((d.getField field).getD [])))

/-- Python `" ".join(ts)`. -/
def joinSp : List Str → Str
  | [] => []
  | [t] => t
  | t :: ts => t ++ ' ' :: joinSp ts

/-- The two-document store used to exhibit the tie-break dependence on
set iteration order: both documents match the query token `france` via
the origin index and receive identical (zero) scores. -/
def tieDoc (u : Str) : Doc := ⟨some u, some [], none, none, []⟩

def tieProducts : List (Str × Doc) :=
  [("u1".toList, tieDoc "u1".toList), ("u2".toList, tieDoc "u2".toList)]

def tieIndexes : SearchEngine.EngineIndexes :=
  ⟨fun _ => [], fun _ => [], fun _ => [],
   fun t => if t = "france".toList then ["u1".toList, "u2".toList] else [],
   fun _ => none, []⟩

/-- Variant of `tieIndexes` with a reviews entry for `u2`, giving the two
candidates distinct final scores. -/
def wIndexes : SearchEngine.EngineIndexes :=
  ⟨fun _ => [], fun _ => [], fun _ => [],
   fun t => if t = "france".toList then ["u1".toList, "u2".toList] else [],
   fun u => if u = "u2".toList then some ⟨5, 10⟩ else none, []⟩

example : Indexer.tokenize "The Box of Chocolate-Candy!".toList =
    ["box".toList, "chocolatecandy".toList] := by decide

example : TextProcessor.tokenize "The Box of Chocolate-Candy 123!".toList =
    ["box".toList] := by decide

example : Indexer.tokenize "123".toList = [['1', '2', '3']] := by decide
example : TextProcessor.tokenize "123".toList = [] := by decide

namespace SearchEngine

theorem mem_setInsert {l : List Str} {t x : Str} :
    x ∈ setInsert l t ↔ x = t ∨ x ∈ l := by
  unfold setInsert
  split
  · rename_i h
    constructor
    · exact Or.inr
    · rintro (rfl | hx) <;> assumption
  · simp [or_comm]

theorem mem_setInsert_of_mem {l : List Str} {x : Str} (t : Str) (h : x ∈ l) :
    x ∈ setInsert l t := mem_setInsert.mpr (Or.inr h)

theorem self_mem_setInsert (l : List Str) (t : Str) : t ∈ setInsert l t :=
  mem_setInsert.mpr (Or.inl rfl)

theorem mem_foldl_setInsert_of_mem {x : Str} :
    ∀ (ts : List Str) (acc : List Str), x ∈ acc → x ∈ ts.foldl setInsert acc
  | [], _, h => h
  | _ :: ts, _, h =>
    mem_foldl_setInsert_of_mem ts _ (mem_setInsert_of_mem _ h)

theorem mem_foldl_setInsert_self {x : Str} :
    ∀ (ts : List Str) (acc : List Str), x ∈ ts → x ∈ ts.foldl setInsert acc
  | t :: ts, acc, h => by
    rcases List.mem_cons.mp h with rfl | h
    · exact mem_foldl_setInsert_of_mem ts _ (self_mem_setInsert acc x)
    · exact mem_foldl_setInsert_self ts _ h

theorem synStep_mono {x token : Str} :
    ∀ (dict : List (Str × List Str)) (acc : List Str),
      x ∈ acc → x ∈ synStep token acc dict
  | [], _, h => h
  | kv :: dict, acc, h => by
    unfold synStep
    simp only [List.foldl_cons]
    apply synStep_mono dict
    split
    · exact mem_setInsert_of_mem _ (mem_foldl_setInsert_of_mem _ _ h)
    · exact h

theorem synStep_hit {token k : Str} {syns : List Str} :
    ∀ (dict : List (Str × List Str)) (acc : List Str),
      (k, syns) ∈ dict → (token = k ∨ token ∈ syns) →
      k ∈ synStep token acc dict ∧ ∀ s ∈ syns, s ∈ synStep token acc dict
  | kv :: dict, acc, hmem, hcond => by
    rcases List.mem_cons.mp hmem with rfl | hmem
    · unfold synStep
      simp only [List.foldl_cons, if_pos hcond]
      constructor
      · exact synStep_mono dict _ (self_mem_setInsert _ _)
      · intro s hs
        exact synStep_mono dict _
          (mem_setInsert_of_mem _ (mem_foldl_setInsert_self _ _ hs))
    · have ih := synStep_hit dict
        ((if token = kv.1 ∨ token ∈ kv.2 then
            setInsert (kv.2.foldl setInsert acc) kv.1 else acc)) hmem hcond
      unfold synStep
      simp only [List.foldl_cons]
      exact ih

theorem expand_eq_foldl_synStep (tokens : List Str)
    (dict : List (Str × List Str)) :
    expand_with_synonyms tokens dict =
      tokens.foldl (fun acc token => synStep token acc dict)
        (tokens.foldl setInsert []) := rfl

theorem foldl_synStep_mono {x : Str} (dict : List (Str × List Str)) :
    ∀ (ts : List Str) (acc : List Str),
      x ∈ acc → x ∈ ts.foldl (fun acc token => synStep token acc dict) acc
  | [], _, h => h
  | _ :: ts, acc, h =>
    foldl_synStep_mono dict ts _ (synStep_mono dict acc h)

theorem foldl_synStep_hit {t k : Str} {syns : List Str}
    {dict : List (Str × List Str)} (hkv : (k, syns) ∈ dict)
    (hcond : t = k ∨ t ∈ syns) :
    ∀ (ts : List Str) (acc : List Str), t ∈ ts →
      k ∈ ts.foldl (fun acc token => synStep token acc dict) acc ∧
      ∀ s ∈ syns, s ∈ ts.foldl (fun acc token => synStep token acc dict) acc
  | t0 :: ts, acc, ht => by
    rcases List.mem_cons.mp ht with rfl | ht
    · simp only [List.foldl_cons]
      have h := synStep_hit dict acc hkv hcond
      refine ⟨foldl_synStep_mono dict ts _ h.1, fun s hs => ?_⟩
      exact foldl_synStep_mono dict ts _ (h.2 s hs)
    · simp only [List.foldl_cons]
      exact foldl_synStep_hit hkv hcond ts _ ht

/-- Claim C9: synonym expansion retains every original token, and for every
token that is a synonym-table key or belongs to some key's synonym set,
the expanded set also contains that key and all of that key's synonyms
(expansion works in both directions). -/
theorem expand_with_synonyms_spec (tokens : List Str)
    (dict : List (Str × List Str)) :
    (∀ t ∈ tokens, t ∈ expand_with_synonyms tokens dict) ∧
    (∀ t ∈ tokens, ∀ k syns, (k, syns) ∈ dict → (t = k ∨ t ∈ syns) →
      k ∈ expand_with_synonyms tokens dict ∧
      ∀ s ∈ syns, s ∈ expand_with_synonyms tokens dict) := by
  constructor
  · intro t ht
    rw [expand_eq_foldl_synStep]
    exact foldl_synStep_mono dict tokens _ (mem_foldl_setInsert_self _ _ ht)
  · intro t ht k syns hkv hcond
    exact foldl_synStep_hit hkv hcond tokens _ ht

/-- Witness for C9 at the spec's own example `usa ↔ united states`:
expanding the query token `usa` against the table
`{usa: [united, states]}` yields a set containing `usa`, `united`,
`states`, so documents indexed under either form are retrievable. -/
theorem expand_with_synonyms_spec_witness :
    "usa".toList ∈ expand_with_synonyms ["usa".toList]
        [("usa".toList, ["united".toList, "states".toList])] ∧
    "usa".toList ∈ expand_with_synonyms ["united".toList]
        [("usa".toList, ["united".toList, "states".toList])] ∧
    "states".toList ∈ expand_with_synonyms ["united".toList]
        [("usa".toList, ["united".toList, "states".toList])] := by
  refine ⟨?_, ?_, ?_⟩
  · exact (expand_with_synonyms_spec ["usa".toList]
      [("usa".toList, ["united".toList, "states".toList])]).1 "usa".toList
      (by decide)
  · exact ((expand_with_synonyms_spec ["united".toList]
      [("usa".toList, ["united".toList, "states".toList])]).2 "united".toList
      (by decide) "usa".toList ["united".toList, "states".toList]
      (by decide) (by decide)).1
  · exact ((expand_with_synonyms_spec ["united".toList]
      [("usa".toList, ["united".toList, "states".toList])]).2 "united".toList
      (by decide) "usa".toList ["united".toList, "states".toList]
      (by decide) (by decide)).2 "states".toList (by decide)

/-- Claim C1: in `compute_final_score`, the review component is exactly `0`
when the document has no entry in the reviews index, and also when it
has the zero entry (no reviews), never a penalty or an error; when
reviews exist the count contribution saturates at 10 reviews
(`min(total_reviews, 10)`), so any count `≥ 10` yields the same review
score as exactly 10; a document with 5 reviews averaging 4.5 gets the
strictly positive review score `111/200`; and the review component
enters the final score additively. -/
theorem review_component_of_final_score (ln : ℚ → ℚ)
    (indexes : EngineIndexes) (products : List (Str × Doc)) (u : Str)
    (query : Str) (qtoks : List Str) (doc : Doc)
    (h : products.lookup u = some doc) :
    ∃ sc, compute_final_score ln indexes products u query qtoks = some sc ∧
      (indexes.reviews_index u = none → sc.review_score = 0) ∧
      (∀ rd, indexes.reviews_index u = some rd →
        sc.review_score =
          (rd.mean_mark * (3/10) +
            ((min rd.total_reviews 10 : ℕ) : ℚ) * (1/10)) * (3/10)) ∧
      (∀ rd, indexes.reviews_index u = some rd → 10 ≤ rd.total_reviews →
        sc.review_score = (rd.mean_mark * (3/10) + 1) * (3/10)) ∧
      (∀ rd, indexes.reviews_index u = some rd → rd.total_reviews = 0 →
        rd.mean_mark = 0 → sc.review_score = 0) ∧
      (∀ rd, indexes.reviews_index u = some rd → rd.total_reviews = 5 →
        rd.mean_mark = 9/2 →
        sc.review_score = 111/200 ∧ 0 < sc.review_score) ∧
      sc.final_score = sc.bm25_score + sc.exact_match_score +
        sc.title_match_score + sc.review_score := by
  refine ⟨_, by rw [compute_final_score, h], ?_, ?_, ?_, ?_, ?_, rfl⟩
  · intro h0
    simp only [h0]
  · intro rd hrd
    simp only [hrd]
  · intro rd hrd hge
    simp only [hrd, Nat.min_eq_right hge]
    norm_num
  · intro rd hrd h0 hm
    simp only [hrd, h0, hm]
    norm_num
  · intro rd hrd h5 hm
    simp only [hrd, h5, hm]
    norm_num

/-- Witness for C1: a one-document store whose document has the reviews
entry `mean_mark = 4.5, total_reviews = 5` receives review score
`111/200 > 0`. -/
theorem review_component_of_final_score_witness :
    ∃ sc, compute_final_score (fun q => q)
        { title_index := fun _ => [], description_index := fun _ => [],
          brand_index := fun _ => [], origin_index := fun _ => [],
          reviews_index := fun u =>
            if u = "u1".toList then some ⟨9/2, 5⟩ else none,
          origin_synonyms := [] }
        [("u1".toList, ⟨some "u1".toList, some [], some [], none, []⟩)]
        "u1".toList "q".toList ["q".toList] = some sc ∧
      sc.review_score = 111/200 ∧ 0 < sc.review_score := by
  obtain ⟨sc, hsc, -, -, -, -, h45, -⟩ :=
    review_component_of_final_score (fun q => q)
      { title_index := fun _ => [], description_index := fun _ => [],
        brand_index := fun _ => [], origin_index := fun _ => [],
        reviews_index := fun u =>
          if u = "u1".toList then some ⟨9/2, 5⟩ else none,
        origin_synonyms := [] }
      [("u1".toList, ⟨some "u1".toList, some [], some [], none, []⟩)]
      "u1".toList "q".toList ["q".toList]
      ⟨some "u1".toList, some [], some [], none, []⟩ rfl
  exact ⟨sc, hsc, h45 ⟨9/2, 5⟩ rfl rfl rfl⟩

end SearchEngine

/-- An `Option`-valued fold whose step never fails is the pure fold. -/
theorem foldlM_option_pure {α β : Type} (g : β → α → β) :
    ∀ (l : List α) (init : β),
      (l.foldlM (fun b a => some (g b a)) init : Option β) =
        some (l.foldl g init)
  | [], _ => rfl
  | a :: l, init => by
    simp only [List.foldlM_cons, List.foldl_cons, Option.bind_eq_bind,
      Option.some_bind]
    exact foldlM_option_pure g l (g init a)

namespace Indexer

theorem foldlM_revStep_abort {d : Doc} (hd : d.url = none) :
    ∀ (data : List Doc) (f : Str → Option ReviewsEntry), d ∈ data →
      (data.foldlM revStep f : Option _) = none
  | e :: data, f, hmem => by
    simp only [List.foldlM_cons, Option.bind_eq_bind]
    rcases List.mem_cons.mp hmem with rfl | hmem
    · simp only [revStep, hd, Option.none_bind]
    · cases h : revStep f e with
      | none => rfl
      | some f' =>
        simp only [Option.some_bind]
        exact foldlM_revStep_abort hd data f' hmem

theorem foldlM_revStep_not_mem :
    ∀ (data : List Doc) (f g : Str → Option ReviewsEntry),
      (data.foldlM revStep f : Option _) = some g → ∀ u : Str,
      u ∉ data.filterMap Doc.url → g u = f u
  | [], f, g, hfold, u, _ => by
    simp only [List.foldlM_nil] at hfold
    cases hfold
    rfl
  | e :: data, f, g, hfold, u, hu => by
    simp only [List.foldlM_cons, Option.bind_eq_bind] at hfold
    cases he : e.url with
    | none =>
      simp only [revStep, he, Option.none_bind] at hfold
      cases hfold
    | some u0 =>
      simp only [revStep, he, Option.some_bind] at hfold
      rw [List.filterMap_cons, he] at hu
      simp only [List.mem_cons, not_or] at hu
      have hres := foldlM_revStep_not_mem data _ g hfold u hu.2
      rw [hres, if_neg hu.1]

theorem foldlM_revStep_lookup :
    ∀ (data : List Doc) (f g : Str → Option ReviewsEntry),
      (data.foldlM revStep f : Option _) = some g →
      (data.filterMap Doc.url).Nodup →
      ∀ d ∈ data, ∀ u : Str, d.url = some u → g u = some (reviewsEntryOf d)
  | e :: data, f, g, hfold, hnd, d, hd, u, hu => by
    simp only [List.foldlM_cons, Option.bind_eq_bind] at hfold
    rcases List.mem_cons.mp hd with rfl | hd
    · simp only [revStep, hu, Option.some_bind] at hfold
      rw [List.filterMap_cons, hu] at hnd
      have hres := foldlM_revStep_not_mem data _ g hfold u
        (List.nodup_cons.mp hnd).1
      rw [hres, if_pos rfl]
    · cases he : e.url with
      | none =>
        simp only [revStep, he, Option.none_bind] at hfold
        cases hfold
      | some u0 =>
        simp only [revStep, he, Option.some_bind] at hfold
        rw [List.filterMap_cons, he] at hnd
        exact foldlM_revStep_lookup data _ g hfold
          (List.nodup_cons.mp hnd).2 d hd u hu

end Indexer

/-- Rounding to `d` decimal places moves a rational by at most half a
unit in the last place. -/
theorem abs_roundTo_sub_le (d : ℕ) (q : ℚ) :
    |roundTo d q - q| ≤ 1 / (2 * 10 ^ d) := by
  have hpow : (0:ℚ) < 10 ^ d := by positivity
  have h : roundTo d q - q =
      ((round (q * 10 ^ d) : ℚ) - q * 10 ^ d) / 10 ^ d := by
    rw [roundTo]
    field_simp
    ring
  have h2 : |(round (q * 10 ^ d) : ℚ) - q * 10 ^ d| ≤ 1/2 := by
    rw [abs_sub_comm]
    exact abs_sub_round _
  calc |roundTo d q - q|
      = |(round (q * 10 ^ d) : ℚ) - q * 10 ^ d| / 10 ^ d := by
        rw [h, abs_div, abs_of_pos hpow]
    _ ≤ (1/2) / 10 ^ d := by gcongr
    _ = 1 / (2 * 10 ^ d) := by ring

/-- Claim C6: in the reviews index built by `create_reviews_index`, a
document's `average_score` is `None` exactly when its `total_reviews`
is `0`; `total_reviews` counts the collected ratings; and a nonzero
count comes with an average equal to the mean of the collected ratings
within the rounding tolerance of `round(·, 2)`. -/
theorem create_reviews_index_invariant (data : List Doc)
    (ridx : Str → Option Indexer.ReviewsEntry)
    (h : Indexer.create_reviews_index data = some ridx)
    (hnd : (data.filterMap Doc.url).Nodup)
    (d : Doc) (hd : d ∈ data) (u : Str) (hu : d.url = some u) :
    ∃ e, ridx u = some e ∧
      (e.average_score = none ↔ e.total_reviews = 0) ∧
      e.total_reviews = (d.product_reviews.filterMap id).length ∧
      (e.total_reviews ≠ 0 → ∃ q, e.average_score = some q ∧
        |q - (d.product_reviews.filterMap id).sum /
          ((d.product_reviews.filterMap id).length : ℚ)| ≤ 1/100) := by
  have hlook := Indexer.foldlM_revStep_lookup data _ ridx h hnd d hd u hu
  refine ⟨_, hlook, ?_⟩
  by_cases hr : d.product_reviews.filterMap id = []
  · simp [Indexer.reviewsEntryOf, hr]
  · simp only [Indexer.reviewsEntryOf, dif_neg hr]
    constructor
    · simp [List.length_eq_zero, hr]
    constructor
    · trivial
    intro _
    exact ⟨_, rfl, le_trans (abs_roundTo_sub_le 2 _) (by norm_num)⟩

/-- Witness for C6: a document whose reviews carry ratings `[4, 5]`
(and one review without a rating) gets `total_reviews = 2` and an
average within `1/100` of `9/2`; its `average_score` is not `None`. -/
theorem create_reviews_index_invariant_witness :
    ∃ ridx, Indexer.create_reviews_index
        [⟨some "u1".toList, none, none, none, [some 4, some 5, none]⟩] =
          some ridx ∧
      ∃ e, ridx "u1".toList = some e ∧
        (e.average_score = none ↔ e.total_reviews = 0) ∧
        e.total_reviews = 2 ∧
        ∃ q, e.average_score = some q ∧ |q - 9/2| ≤ 1/100 := by
  refine ⟨_, rfl, ?_⟩
  obtain ⟨e, he, hiff, hlen, havg⟩ := create_reviews_index_invariant
    [⟨some "u1".toList, none, none, none, [some 4, some 5, none]⟩] _ rfl
    (by decide) ⟨some "u1".toList, none, none, none, [some 4, some 5, none]⟩
    (List.mem_singleton.mpr rfl) "u1".toList rfl
  have hl2 : e.total_reviews = 2 := by rw [hlen]; rfl
  refine ⟨e, he, hiff, hl2, ?_⟩
  · have h2 : e.total_reviews ≠ 0 := by rw [hl2]; norm_num
    obtain ⟨q, hq, hclose⟩ := havg h2
    refine ⟨q, hq, ?_⟩
    have : ([some (4:ℚ), some 5, none].filterMap id).sum /
        (([some (4:ℚ), some 5, none].filterMap id).length : ℚ) = 9/2 := by
      norm_num [List.filterMap]
    rw [this] at hclose
    exact hclose

namespace Indexer

theorem invStep_some {d : Doc} {u : Str} (hu : d.url = some u)
    (field : DocField) (f : Str → List Str) :
    invStep field f d =
      some ((tokenize ((d.getField field).getD [])).foldl (invTokenStep u) f) := by
  unfold invStep
  have hstep : (fun (index : Str → List Str) (token : Str) =>
      (match d.url with
       | none => none
       | some u => some (invTokenStep u index token) : Option (Str → List Str))) =
      fun index token => some (invTokenStep u index token) := by
    funext index token
    rw [hu]
  rw [hstep]
  exact foldlM_option_pure _ _ _

theorem invStep_url_none {d : Doc} (hu : d.url = none) (field : DocField)
    (f : Str → List Str) :
    (tokenize ((d.getField field).getD []) = [] ∧ invStep field f d = some f) ∨
    (tokenize ((d.getField field).getD []) ≠ [] ∧ invStep field f d = none) := by
  unfold invStep
  cases htoks : tokenize ((d.getField field).getD []) with
  | nil => exact Or.inl ⟨rfl, rfl⟩
  | cons t ts =>
    refine Or.inr ⟨by simp, ?_⟩
    simp [List.foldlM_cons, hu]

theorem foldl_invTokenStep (u : Str) :
    ∀ (ts : List Str) (f : Str → List Str) (t : Str),
      (ts.foldl (invTokenStep u) f) t =
        if t ∈ ts ∧ u ∉ f t then f t ++ [u] else f t
  | [], f, t => by simp
  | t0 :: ts, f, t => by
    rw [List.foldl_cons, foldl_invTokenStep u ts _ t]
    by_cases ht0 : t = t0
    · subst ht0
      by_cases huf : u ∈ f t
      · rw [invTokenStep, if_pos rfl, if_pos huf]
        simp [huf]
      · have hmem : u ∈ (invTokenStep u f t) t := by
          rw [invTokenStep, if_pos rfl, if_neg huf]
          simp
        rw [if_neg (fun hc => hc.2 hmem)]
        rw [invTokenStep, if_pos rfl, if_neg huf]
        simp [huf]
    · have hft : (invTokenStep u f t0) t = f t := by
        rw [invTokenStep, if_neg ht0]
      rw [hft]
      by_cases hts : t ∈ ts ∧ u ∉ f t
      · rw [if_pos hts, if_pos ⟨List.mem_cons_of_mem _ hts.1, hts.2⟩]
      · rw [if_neg hts, if_neg (fun hc => hts ⟨(List.mem_cons.mp hc.1).resolve_left ht0, hc.2⟩)]

theorem foldlM_invStep_abort {field : DocField} {d : Doc} (hd : d.url = none)
    (htok : tokenize ((d.getField field).getD []) ≠ []) :
    ∀ (data : List Doc) (f : Str → List Str), d ∈ data →
      (data.foldlM (invStep field) f : Option _) = none
  | e :: data, f, hmem => by
    simp only [List.foldlM_cons, Option.bind_eq_bind]
    rcases List.mem_cons.mp hmem with rfl | hmem
    · rcases invStep_url_none hd field f with ⟨h1, _⟩ | ⟨_, h2⟩
      · exact absurd h1 htok
      · rw [h2]; rfl
    · cases h : invStep field f e with
      | none => rfl
      | some f' =>
        simp only [Option.some_bind]
        exact foldlM_invStep_abort hd htok data f' hmem

theorem foldlM_invStep_complete {field : DocField} :
    ∀ (data : List Doc) (f : Str → List Str), (∀ d ∈ data, (d.url).isSome) →
      ∃ g, (data.foldlM (invStep field) f : Option _) = some g
  | [], f, _ => ⟨f, rfl⟩
  | e :: data, f, hall => by
    simp only [List.foldlM_cons, Option.bind_eq_bind]
    cases hu : e.url with
    | none =>
      have := hall e (List.mem_cons_self _ _)
      rw [hu] at this
      cases this
    | some u0 =>
      rw [invStep_some hu field f, Option.some_bind]
      exact foldlM_invStep_complete data _
        (fun d hd => hall d (List.mem_cons_of_mem _ hd))

theorem foldlM_invStep_lookup {field : DocField} {t : Str} :
    ∀ (data : List Doc) (f g : Str → List Str),
      (data.foldlM (invStep field) f : Option _) = some g →
      (data.filterMap Doc.url).Nodup →
      (∀ d ∈ data, ∀ u : Str, d.url = some u → u ∉ f t) →
      g t = f t ++ data.filterMap (fun d =>
        if t ∈ tokenize ((d.getField field).getD []) then d.url else none)
  | [], f, g, hfold, _, _ => by
    simp only [List.foldlM_nil] at hfold
    cases hfold
    simp
  | e :: data, f, g, hfold, hnd, hfresh => by
    simp only [List.foldlM_cons, Option.bind_eq_bind] at hfold
    cases hu : e.url with
    | none =>
      rcases invStep_url_none hu field f with ⟨h1, h2⟩ | ⟨_, h2⟩
      · rw [h2, Option.some_bind] at hfold
        rw [List.filterMap_cons] at hnd ⊢
        rw [hu] at hnd ⊢
        simp only [h1]
        have := foldlM_invStep_lookup data f g hfold hnd
          (fun d hd => hfresh d (List.mem_cons_of_mem _ hd))
        simpa using this
      · rw [h2] at hfold
        cases hfold
    | some u0 =>
      rw [invStep_some hu field f, Option.some_bind] at hfold
      rw [List.filterMap_cons] at hnd ⊢
      rw [hu] at hnd ⊢
      have hfr0 : u0 ∉ f t := hfresh e (List.mem_cons_self _ _) u0 hu
      have hft : (tokenize ((e.getField field).getD [])).foldl (invTokenStep u0) f t =
          f t ++ (if t ∈ tokenize ((e.getField field).getD []) then [u0] else []) := by
        rw [foldl_invTokenStep]
        by_cases hmem : t ∈ tokenize ((e.getField field).getD [])
        · rw [if_pos ⟨hmem, hfr0⟩, if_pos hmem]
        · rw [if_neg (fun hc => hmem hc.1), if_neg hmem]
          simp
      have hfresh' : ∀ d ∈ data, ∀ u : Str, d.url = some u →
          u ∉ (tokenize ((e.getField field).getD [])).foldl (invTokenStep u0) f t := by
        intro d hd u hdu
        rw [hft]
        intro hmem
        rcases List.mem_append.mp hmem with h1 | h2
        · exact hfresh d (List.mem_cons_of_mem _ hd) u hdu h1
        · have : u = u0 := by
            by_cases hcond : t ∈ tokenize ((e.getField field).getD [])
            · rw [if_pos hcond] at h2
              simpa using h2
            · rw [if_neg hcond] at h2
              cases h2
          subst this
          exact (List.nodup_cons.mp hnd).1
            (List.mem_filterMap.mpr ⟨d, hd, hdu⟩)
      have := foldlM_invStep_lookup data _ g hfold (List.nodup_cons.mp hnd).2 hfresh'
      rw [this, hft]
      by_cases hcond : t ∈ tokenize ((e.getField field).getD [])
      · simp [hcond]
      · simp [hcond]

end Indexer

namespace Indexer

theorem filterMap_ite_url_sublist (p : Doc → Prop) [DecidablePred p] :
    ∀ data : List Doc,
      (data.filterMap (fun d => if p d then d.url else none)).Sublist
        (data.filterMap Doc.url)
  | [] => List.Sublist.refl _
  | e :: data => by
    rw [List.filterMap_cons, List.filterMap_cons]
    by_cases hp : p e
    · rw [if_pos hp]
      cases e.url with
      | none => exact filterMap_ite_url_sublist p data
      | some u => exact (filterMap_ite_url_sublist p data).cons₂ u
    · rw [if_neg hp]
      cases e.url with
      | none => exact filterMap_ite_url_sublist p data
      | some u => exact (filterMap_ite_url_sublist p data).cons u

theorem url_isSome_of_success {field : DocField} {data : List Doc}
    {g : Str → List Str} (h : create_inverted_index data field = some g) :
    ∀ d ∈ data, tokenize ((d.getField field).getD []) ≠ [] → (d.url).isSome := by
  intro d hd htok
  cases hu : d.url with
  | some u => rfl
  | none =>
    rw [create_inverted_index, foldlM_invStep_abort hu htok data _ hd] at h
    cases h

theorem length_filterMap_ite (field : DocField) (t : Str) :
    ∀ data : List Doc,
      (∀ d ∈ data, t ∈ tokenize ((d.getField field).getD []) → (d.url).isSome) →
      (data.filterMap (fun d =>
        if t ∈ tokenize ((d.getField field).getD []) then d.url else none)).length =
        data.countP (fun d => decide (t ∈ tokenize ((d.getField field).getD [])))
  | [], _ => rfl
  | e :: data, hall => by
    have ih := length_filterMap_ite field t data
      (fun d hd => hall d (List.mem_cons_of_mem _ hd))
    rw [List.filterMap_cons, List.countP_cons]
    by_cases hcond : t ∈ tokenize ((e.getField field).getD [])
    · have hsome := hall e (List.mem_cons_self _ _) hcond
      cases hu : e.url with
      | none => rw [hu] at hsome; cases hsome
      | some u => simp [hcond, hu, ih]
    · simp [hcond, ih]

/-- The inverted index entry for `t` is exactly the URL list of the
documents whose tokenized field contains `t`, in document order. -/
theorem create_inverted_index_entry {field : DocField} {data : List Doc}
    {g : Str → List Str} (h : create_inverted_index data field = some g)
    (hnd : (data.filterMap Doc.url).Nodup) (t : Str) :
    g t = data.filterMap (fun d =>
      if t ∈ tokenize ((d.getField field).getD []) then d.url else none) := by
  have hlk := @foldlM_invStep_lookup field t data (fun _ => []) g h hnd
    (fun d _ u _ hmem => (List.not_mem_nil u) hmem)
  simpa using hlk

end Indexer

/-- A member of a duplicate-free list has count 1, for any lawful
`BEq`. -/
theorem count_eq_one_of_nodup_of_mem {α : Type} [BEq α] [LawfulBEq α] {a : α} :
    ∀ {l : List α}, l.Nodup → a ∈ l → l.count a = 1
  | b :: l, hnd, hmem => by
    rw [List.count_cons]
    rcases List.mem_cons.mp hmem with rfl | hmem
    · have : l.count a = 0 :=
        List.count_eq_zero.mpr (List.nodup_cons.mp hnd).1
      simp [this]
    · have hne : b ≠ a := by
        rintro rfl
        exact (List.nodup_cons.mp hnd).1 hmem
      have : l.count a = 1 :=
        count_eq_one_of_nodup_of_mem (List.nodup_cons.mp hnd).2 hmem
      simp [this, hne]

/-- Claim C8: for a document stream with distinct URLs, if a term occurs
in the tokenized title of a document, that document's URL appears in
the title inverted index entry of the term exactly once, no matter how
often the term repeats in the title. -/
theorem inverted_index_url_once (data : List Doc) (idx : Str → List Str)
    (h : Indexer.create_inverted_index data .title = some idx)
    (hnd : (data.filterMap Doc.url).Nodup)
    (d : Doc) (hd : d ∈ data) (u : Str) (hu : d.url = some u)
    (t : Str) (ht : t ∈ Indexer.tokenize (d.title.getD [])) :
    (idx t).count u = 1 := by
  rw [Indexer.create_inverted_index_entry h hnd t]
  apply count_eq_one_of_nodup_of_mem
  · exact (Indexer.filterMap_ite_url_sublist _ data).nodup hnd
  · exact List.mem_filterMap.mpr ⟨d, hd, by simp [Doc.getField, ht, hu]⟩

/-- Witness for C8: a title containing `chocolate` twice still lists the
document's URL once in the entry for `chocolate`. -/
theorem inverted_index_url_once_witness :
    ∃ idx, Indexer.create_inverted_index
        [⟨some "u1".toList, some "chocolate chocolate".toList, none, none, []⟩]
        .title = some idx ∧
      (idx "chocolate".toList).count "u1".toList = 1 := by
  refine ⟨_, rfl, ?_⟩
  exact inverted_index_url_once
    [⟨some "u1".toList, some "chocolate chocolate".toList, none, none, []⟩]
    _ rfl (by decide)
    ⟨some "u1".toList, some "chocolate chocolate".toList, none, none, []⟩
    (List.mem_singleton.mpr rfl) _ rfl _ (by decide)

/-- Counterexample to C2 as stated: a stream with one well-formed
document and one document lacking `url` (but with a title) makes both
`create_inverted_index` and `create_reviews_index` abort with an error
(`none`); the malformed document is not skipped and the build does not
complete over the remaining document. -/
theorem malformed_document_aborts_counterexample :
    Indexer.create_inverted_index
      [⟨some "u1".toList, some "box".toList, none, none, []⟩,
       ⟨none, some "chocolate".toList, none, none, []⟩] .title = none ∧
    Indexer.create_reviews_index
      [⟨some "u1".toList, some "box".toList, none, none, []⟩,
       ⟨none, some "chocolate".toList, none, none, []⟩] = none := ⟨rfl, rfl⟩

theorem Indexer.foldlM_revStep_complete :
    ∀ (data : List Doc) (f : Str → Option Indexer.ReviewsEntry),
      (∀ d ∈ data, (d.url).isSome) →
      ∃ r, (data.foldlM Indexer.revStep f : Option _) = some r
  | [], f, _ => ⟨f, rfl⟩
  | e :: data, f, hall => by
    simp only [List.foldlM_cons, Option.bind_eq_bind]
    cases hu : e.url with
    | none =>
      have := hall e (List.mem_cons_self _ _)
      rw [hu] at this
      cases this
    | some u0 =>
      simp only [Indexer.revStep, hu, Option.some_bind]
      exact Indexer.foldlM_revStep_complete data _
        (fun d hd => hall d (List.mem_cons_of_mem _ hd))

/-- Claim C2 (amended): a document missing `title` or `description` is
treated as having an empty field and the builds complete over the whole
stream (no warning is emitted anywhere); but a document missing `url`
aborts `create_inverted_index` with an error whenever its tokenized
field is nonempty, and always aborts `create_reviews_index`. -/
theorem malformed_document_handling (data : List Doc) (field : DocField) :
    ((∀ d ∈ data, (d.url).isSome) →
      (∃ g, Indexer.create_inverted_index data field = some g) ∧
      (∃ r, Indexer.create_reviews_index data = some r)) ∧
    (∀ d ∈ data, d.url = none →
      Indexer.tokenize ((d.getField field).getD []) ≠ [] →
      Indexer.create_inverted_index data field = none) ∧
    (∀ d ∈ data, d.url = none →
      Indexer.create_reviews_index data = none) := by
  refine ⟨fun hall => ⟨?_, ?_⟩, ?_, ?_⟩
  · exact Indexer.foldlM_invStep_complete data _ hall
  · exact Indexer.foldlM_revStep_complete data _ hall
  · intro d hd hu htok
    exact Indexer.foldlM_invStep_abort hu htok data _ hd
  · intro d hd hu
    exact Indexer.foldlM_revStep_abort hu data _ hd

/-- Witness for C2 (amended): a stream whose documents all carry a `url`
but where one lacks `title` and `description` builds successfully, and
the two-document stream with a missing `url` aborts both builds. -/
theorem malformed_document_handling_witness :
    ((∃ g, Indexer.create_inverted_index
        [⟨some "u1".toList, none, none, none, []⟩,
         ⟨some "u2".toList, some "box".toList, none, none, []⟩] .title = some g) ∧
      (∃ r, Indexer.create_reviews_index
        [⟨some "u1".toList, none, none, none, []⟩,
         ⟨some "u2".toList, some "box".toList, none, none, []⟩] = some r)) ∧
    Indexer.create_inverted_index
      [⟨some "u1".toList, some "box".toList, none, none, []⟩,
       ⟨none, some "chocolate".toList, none, none, []⟩] .title = none := by
  constructor
  · exact (malformed_document_handling
      [⟨some "u1".toList, none, none, none, []⟩,
       ⟨some "u2".toList, some "box".toList, none, none, []⟩] .title).1
      (by
        intro d hd
        rcases List.mem_cons.mp hd with rfl | hd2
        · rfl
        · rcases List.mem_cons.mp hd2 with rfl | hd3
          · rfl
          · cases hd3)
  · exact (malformed_document_handling
      [⟨some "u1".toList, some "box".toList, none, none, []⟩,
       ⟨none, some "chocolate".toList, none, none, []⟩] .title).2.1
      ⟨none, some "chocolate".toList, none, none, []⟩
      (List.mem_cons_of_mem _ (List.mem_singleton.mpr rfl)) rfl (by decide)

/-- Counterexample to C4 as stated: for a one-document store whose
document contains `chocolate` in both title and description, the
`doc_count` that `compute_bm25_score` feeds into the idf is `2` —
the title and description document frequencies are added, counting the
document twice — while the number of distinct documents containing the
token in either single field (the spec's df) is `1`, and the idf
argument genuinely differs (`4/5` versus `4/3`). -/
theorem bm25_df_counterexample :
    ∃ ti di, Indexer.create_inverted_index
        [⟨some "u1".toList, some "chocolate".toList,
          some "chocolate".toList, none, []⟩] .title = some ti ∧
      Indexer.create_inverted_index
        [⟨some "u1".toList, some "chocolate".toList,
          some "chocolate".toList, none, []⟩] .description = some di ∧
      SearchEngine.doc_count
        ⟨ti, di, fun _ => [], fun _ => [], fun _ => none, []⟩
        "chocolate".toList = 2 ∧
      spec_df [⟨some "u1".toList, some "chocolate".toList,
          some "chocolate".toList, none, []⟩] .title "chocolate".toList = 1 ∧
      spec_df [⟨some "u1".toList, some "chocolate".toList,
          some "chocolate".toList, none, []⟩] .description "chocolate".toList
        = 1 ∧
      SearchEngine.idfArg 1 2 ≠ SearchEngine.idfArg 1 1 := by
  refine ⟨_, _, rfl, rfl, rfl, rfl, rfl, ?_⟩
  intro hc
  rw [SearchEngine.idfArg, SearchEngine.idfArg] at hc
  norm_num at hc

/-- Claim C4 (amended): the document frequency that `compute_bm25_score`
uses is the sum of the title document frequency and the description
document frequency — a document containing the token in both fields is
counted twice, and the same combined count is used whichever field is
scored — and the per-term idf weight applied is
`ln((N - doc_count + 0.5) / (doc_count + 0.5) + 1)` with `N` the size
of the product store. -/
theorem bm25_df_sums_title_and_description (data : List Doc)
    (ti di bi oi : Str → List Str) (ri : Str → Option SearchEngine.ReviewData)
    (syn : List (Str × List Str))
    (hti : Indexer.create_inverted_index data .title = some ti)
    (hdi : Indexer.create_inverted_index data .description = some di)
    (hnd : (data.filterMap Doc.url).Nodup) (t : Str) :
    SearchEngine.doc_count ⟨ti, di, bi, oi, ri, syn⟩ t =
      data.countP (fun d => decide (t ∈ Indexer.tokenize (d.title.getD []))) +
      data.countP (fun d => decide (t ∈ Indexer.tokenize (d.description.getD []))) ∧
    (∀ (ln : ℚ → ℚ) (products : List (Str × Doc)) (u : Str) (doc : Doc),
      products.lookup u = some doc →
      SearchEngine.compute_bm25_score ln ⟨ti, di, bi, oi, ri, syn⟩ products u [t] =
        some (if SearchEngine.doc_count ⟨ti, di, bi, oi, ri, syn⟩ t = 0 then 0
          else
            ln (SearchEngine.idfArg products.length
              (SearchEngine.doc_count ⟨ti, di, bi, oi, ri, syn⟩ t)) *
            ((((TextProcessor.tokenize
                  ((doc.title.getD []) ++ ' ' :: (doc.description.getD []))).count t : ℚ)
                * (3/2 + 1)) /
              (((TextProcessor.tokenize
                  ((doc.title.getD []) ++ ' ' :: (doc.description.getD []))).count t : ℚ)
                + (3/2) * (1 - 3/4 + (3/4) *
                  (((TextProcessor.tokenize
                    ((doc.title.getD []) ++ ' ' :: (doc.description.getD []))).length : ℚ)
                    / 300)))))) := by
  constructor
  · show (ti t).length + (di t).length = _
    rw [Indexer.create_inverted_index_entry hti hnd t,
      Indexer.create_inverted_index_entry hdi hnd t,
      Indexer.length_filterMap_ite .title t data
        (fun d hd hm => Indexer.url_isSome_of_success hti d hd
          (List.ne_nil_of_mem hm)),
      Indexer.length_filterMap_ite .description t data
        (fun d hd hm => Indexer.url_isSome_of_success hdi d hd
          (List.ne_nil_of_mem hm))]
    rfl
  · intro ln products u doc hlook
    rw [SearchEngine.compute_bm25_score, hlook]
    simp only [List.foldl_cons, List.foldl_nil]
    by_cases hdc : SearchEngine.doc_count ⟨ti, di, bi, oi, ri, syn⟩ t = 0
    · rw [if_pos hdc, if_pos hdc]
    · rw [if_neg hdc, if_neg hdc]
      rw [zero_add]

/-- Witness for C4 (amended): on the one-document store of the
counterexample, the combined df for `chocolate` is `1 + 1 = 2`. -/
theorem bm25_df_sums_witness :
    ∃ ti di, Indexer.create_inverted_index
        [⟨some "u1".toList, some "chocolate".toList,
          some "chocolate".toList, none, []⟩] .title = some ti ∧
      Indexer.create_inverted_index
        [⟨some "u1".toList, some "chocolate".toList,
          some "chocolate".toList, none, []⟩] .description = some di ∧
      SearchEngine.doc_count
        ⟨ti, di, fun _ => [], fun _ => [], fun _ => none, []⟩
        "chocolate".toList = 1 + 1 := by
  refine ⟨_, _, rfl, rfl, ?_⟩
  rw [(bm25_df_sums_title_and_description
    [⟨some "u1".toList, some "chocolate".toList,
      some "chocolate".toList, none, []⟩]
    _ _ (fun _ => []) (fun _ => []) (fun _ => none) []
    rfl rfl (by decide) "chocolate".toList).1]
  rfl

namespace Indexer

theorem posStep_some {d : Doc} {u : Str} (hu : d.url = some u)
    (field : DocField) (f : Str → Str → List ℕ) :
    posStep field f d =
      some (((tokenize ((d.getField field).getD [])).enum).foldl
        (posTokenStep u) f) := by
  unfold posStep
  have hstep : (fun (index : Str → Str → List ℕ) (pt : ℕ × Str) =>
      (match d.url with
       | none => none
       | some u => some (posTokenStep u index pt) : Option (Str → Str → List ℕ))) =
      fun index pt => some (posTokenStep u index pt) := by
    funext index pt
    rw [hu]
  rw [hstep]
  exact foldlM_option_pure _ _ _

theorem posStep_url_none {d : Doc} (hu : d.url = none) (field : DocField)
    (f : Str → Str → List ℕ) :
    (tokenize ((d.getField field).getD []) = [] ∧ posStep field f d = some f) ∨
    (tokenize ((d.getField field).getD []) ≠ [] ∧ posStep field f d = none) := by
  unfold posStep
  cases htoks : tokenize ((d.getField field).getD []) with
  | nil => exact Or.inl ⟨rfl, rfl⟩
  | cons t ts =>
    refine Or.inr ⟨by simp, ?_⟩
    simp only [hu]
    rw [show (t :: ts).enum = (0, t) :: (ts.enumFrom 1) from rfl]
    rfl

theorem foldl_posTokenStep (u : Str) :
    ∀ (ps : List (ℕ × Str)) (f : Str → Str → List ℕ) (t : Str) (u' : Str),
      (ps.foldl (posTokenStep u) f) t u' =
        if u' = u then
          f t u' ++ (ps.filter (fun pt => pt.2 = t)).map Prod.fst
        else f t u'
  | [], f, t, u' => by
    by_cases h : u' = u <;> simp [h]
  | pt0 :: ps, f, t, u' => by
    rw [List.foldl_cons, foldl_posTokenStep u ps _ t u', List.filter_cons]
    by_cases hu' : u' = u
    · by_cases ht0 : pt0.2 = t
      · have hstep : (posTokenStep u f pt0) t u' = f t u' ++ [pt0.1] := by
          rw [posTokenStep, if_pos ⟨ht0.symm, hu'⟩]
        rw [if_pos hu', if_pos hu', hstep, if_pos (by simp [ht0])]
        simp
      · have hstep : (posTokenStep u f pt0) t u' = f t u' := by
          rw [posTokenStep, if_neg (fun hc => ht0 hc.1.symm)]
        rw [if_pos hu', if_pos hu', hstep, if_neg (by simp [ht0])]
    · have hstep : (posTokenStep u f pt0) t u' = f t u' := by
        rw [posTokenStep, if_neg (fun hc => hu' hc.2)]
      rw [if_neg hu', if_neg hu', hstep]

theorem foldlM_posStep_abort {field : DocField} {d : Doc} (hd : d.url = none)
    (htok : tokenize ((d.getField field).getD []) ≠ []) :
    ∀ (data : List Doc) (f : Str → Str → List ℕ), d ∈ data →
      (data.foldlM (posStep field) f : Option _) = none
  | e :: data, f, hmem => by
    simp only [List.foldlM_cons, Option.bind_eq_bind]
    rcases List.mem_cons.mp hmem with rfl | hmem
    · rcases posStep_url_none hd field f with ⟨h1, _⟩ | ⟨_, h2⟩
      · exact absurd h1 htok
      · rw [h2]; rfl
    · cases h : posStep field f e with
      | none => rfl
      | some f' =>
        simp only [Option.some_bind]
        exact foldlM_posStep_abort hd htok data f' hmem

theorem foldlM_posStep_not_mem {field : DocField} {u : Str} :
    ∀ (data : List Doc) (f g : Str → Str → List ℕ),
      (data.foldlM (posStep field) f : Option _) = some g →
      u ∉ data.filterMap Doc.url → ∀ t : Str, g t u = f t u
  | [], f, g, hfold, _, t => by
    simp only [List.foldlM_nil] at hfold
    cases hfold
    rfl
  | e :: data, f, g, hfold, hu, t => by
    simp only [List.foldlM_cons, Option.bind_eq_bind] at hfold
    cases he : e.url with
    | none =>
      rcases posStep_url_none he field f with ⟨_, h2⟩ | ⟨_, h2⟩
      · rw [h2, Option.some_bind] at hfold
        rw [List.filterMap_cons, he] at hu
        exact foldlM_posStep_not_mem data f g hfold hu t
      · rw [h2] at hfold
        cases hfold
    | some u0 =>
      rw [posStep_some he field f, Option.some_bind] at hfold
      rw [List.filterMap_cons, he] at hu
      simp only [List.mem_cons, not_or] at hu
      have hres := foldlM_posStep_not_mem data _ g hfold hu.2 t
      rw [hres, foldl_posTokenStep, if_neg hu.1]

theorem foldlM_posStep_lookup {field : DocField} {u : Str} :
    ∀ (data : List Doc) (f g : Str → Str → List ℕ),
      (data.foldlM (posStep field) f : Option _) = some g →
      (data.filterMap Doc.url).Nodup →
      ∀ d ∈ data, d.url = some u → ∀ t : Str,
      g t u = f t u ++
        (((tokenize ((d.getField field).getD [])).enum).filter
          (fun pt => pt.2 = t)).map Prod.fst
  | e :: data, f, g, hfold, hnd, d, hd, hu, t => by
    simp only [List.foldlM_cons, Option.bind_eq_bind] at hfold
    rcases List.mem_cons.mp hd with rfl | hd
    · rw [posStep_some hu field f, Option.some_bind] at hfold
      rw [List.filterMap_cons, hu] at hnd
      have hres := foldlM_posStep_not_mem data _ g hfold
        (List.nodup_cons.mp hnd).1 t
      rw [hres, foldl_posTokenStep, if_pos rfl]
    · cases he : e.url with
      | none =>
        rcases posStep_url_none he field f with ⟨_, h2⟩ | ⟨_, h2⟩
        · rw [h2, Option.some_bind] at hfold
          rw [List.filterMap_cons, he] at hnd
          exact foldlM_posStep_lookup data f g hfold hnd d hd hu t
        · rw [h2] at hfold
          cases hfold
      | some u0 =>
        rw [posStep_some he field f, Option.some_bind] at hfold
        rw [List.filterMap_cons, he] at hnd
        have hne : u0 ≠ u := by
          rintro rfl
          exact (List.nodup_cons.mp hnd).1
            (List.mem_filterMap.mpr ⟨d, hd, hu⟩)
        have hres := foldlM_posStep_lookup data _ g hfold
          (List.nodup_cons.mp hnd).2 d hd hu t
        rw [hres, foldl_posTokenStep, if_neg (fun hc => hne hc.symm)]

end Indexer

/-- Claim C7: in the positional index, the positions recorded under
`(T, url(D))` are exactly the 0-based indices at which `T` occurs in
the tokenized field of `D` — position `i` is recorded iff the `i`-th
token is `T` — and they are strictly increasing. -/
theorem positional_index_positions (data : List Doc) (field : DocField)
    (idx : Str → Str → List ℕ)
    (h : Indexer.create_positional_index data field = some idx)
    (hnd : (data.filterMap Doc.url).Nodup)
    (d : Doc) (hd : d ∈ data) (u : Str) (hu : d.url = some u) (t : Str) :
    idx t u = (((Indexer.tokenize ((d.getField field).getD [])).enum).filter
        (fun pt => pt.2 = t)).map Prod.fst ∧
    List.Pairwise (· < ·) (idx t u) ∧
    (∀ i : ℕ, i ∈ idx t u ↔
      (Indexer.tokenize ((d.getField field).getD []))[i]? = some t) := by
  have hlk := Indexer.foldlM_posStep_lookup data (fun _ _ => []) idx h hnd d hd hu t
  simp only [List.nil_append] at hlk
  refine ⟨hlk, ?_, ?_⟩
  · rw [hlk]
    have hsub : ((((Indexer.tokenize ((d.getField field).getD [])).enum).filter
        (fun pt => pt.2 = t)).map Prod.fst).Sublist
        (((Indexer.tokenize ((d.getField field).getD [])).enum).map Prod.fst) :=
      (List.filter_sublist _).map Prod.fst
    have h2 : ((Indexer.tokenize ((d.getField field).getD [])).enum).map Prod.fst
        = List.range (Indexer.tokenize ((d.getField field).getD [])).length := by
      rw [List.enum_eq_zip_range]
      exact List.map_fst_zip _ _ (by simp)
    rw [h2] at hsub
    exact (List.pairwise_lt_range _).sublist hsub
  · intro i
    rw [hlk]
    constructor
    · intro hi
      obtain ⟨⟨a, b⟩, hpt, hfst⟩ := List.mem_map.mp hi
      obtain ⟨hmem, hcond⟩ := List.mem_filter.mp hpt
      simp only [decide_eq_true_eq] at hcond
      dsimp only at hfst hcond
      subst hfst
      subst hcond
      exact List.mk_mem_enum_iff_getElem?.mp hmem
    · intro hget
      refine List.mem_map.mpr ⟨(i, t), ?_, rfl⟩
      refine List.mem_filter.mpr ⟨List.mk_mem_enum_iff_getElem?.mpr hget, ?_⟩
      simp

/-- Witness for C7: the title `chocolate box chocolate` records the
positions `[0, 2]` for `chocolate` — indices 0 and 2 hold the token,
index 1 does not — and the list is strictly increasing. -/
theorem positional_index_positions_witness :
    ∃ idx, Indexer.create_positional_index
        [⟨some "u1".toList, some "chocolate box chocolate".toList, none,
          none, []⟩] .title = some idx ∧
      idx "chocolate".toList "u1".toList = [0, 2] ∧
      List.Pairwise (· < ·) (idx "chocolate".toList "u1".toList) ∧
      (0 : ℕ) ∈ idx "chocolate".toList "u1".toList ∧
      (1 : ℕ) ∉ idx "chocolate".toList "u1".toList := by
  refine ⟨_, rfl, ?_⟩
  obtain ⟨hpos, hsorted, hiff⟩ := positional_index_positions
    [⟨some "u1".toList, some "chocolate box chocolate".toList, none, none, []⟩]
    .title _ rfl (by decide)
    ⟨some "u1".toList, some "chocolate box chocolate".toList, none, none, []⟩
    (List.mem_singleton.mpr rfl) "u1".toList rfl "chocolate".toList
  refine ⟨by rw [hpos]; rfl, hsorted, ?_, ?_⟩
  · exact (hiff 0).mpr (by decide)
  · intro hmem
    have := (hiff 1).mp hmem
    revert this
    decide

theorem toNat_ofNat_of_valid {n : ℕ} (h : n.isValidChar) :
    (Char.ofNat n).toNat = n := by
  rw [Char.ofNat, dif_pos h]
  rfl

theorem toLower_eq_self_of_not_upper {c : Char}
    (h : ¬(c.toNat ≥ 65 ∧ c.toNat ≤ 90)) : c.toLower = c := by
  rw [Char.toLower, if_neg h]

theorem toLower_of_upper {c : Char} (h : c.toNat ≥ 65 ∧ c.toNat ≤ 90) :
    c.toLower = Char.ofNat (c.toNat + 32) := by
  rw [Char.toLower, if_pos h]

/-- Lowercasing is idempotent at the character level. -/
theorem toLower_toLower (c : Char) : c.toLower.toLower = c.toLower := by
  by_cases h : c.toNat ≥ 65 ∧ c.toNat ≤ 90
  · rw [toLower_of_upper h]
    apply toLower_eq_self_of_not_upper
    rw [toNat_ofNat_of_valid (Or.inl (by omega))]
    omega
  · rw [toLower_eq_self_of_not_upper h, toLower_eq_self_of_not_upper h]

theorem map_eq_self_of_forall {α : Type} {f : α → α} :
    ∀ {l : List α}, (∀ x ∈ l, f x = x) → l.map f = l
  | [], _ => rfl
  | a :: l, h => by
    rw [List.map_cons, h a (List.mem_cons_self _ _),
      map_eq_self_of_forall (fun x hx => h x (List.mem_cons_of_mem _ hx))]

theorem splitWsCore_eq (s : Str) :
    splitWsCore s = (s.takeWhile (fun c => !isWsChar c),
      splitWs (s.dropWhile (fun c => !isWsChar c))) := by
  induction s with
  | nil => rfl
  | cons c cs ih =>
    by_cases hc : isWsChar c
    · have h1 : splitWsCore (c :: cs) =
          ([], if (splitWsCore cs).1.isEmpty then (splitWsCore cs).2
               else (splitWsCore cs).1 :: (splitWsCore cs).2) := by
        rw [splitWsCore]
        simp [hc]
      have h2 : splitWs (c :: cs) =
          if (splitWsCore cs).1.isEmpty then (splitWsCore cs).2
          else (splitWsCore cs).1 :: (splitWsCore cs).2 := by
        rw [splitWs, h1]
        simp
      rw [h1, List.takeWhile_cons, List.dropWhile_cons]
      simp [hc, h2]
    · have h1 : splitWsCore (c :: cs) =
          (c :: (splitWsCore cs).1, (splitWsCore cs).2) := by
        rw [splitWsCore]
        simp [hc]
      rw [h1, List.takeWhile_cons, List.dropWhile_cons]
      simp [hc, ih]

theorem splitWs_nil : splitWs [] = [] := rfl

theorem splitWs_cons_ws {c : Char} (hc : isWsChar c = true) (cs : Str) :
    splitWs (c :: cs) = splitWs cs := by
  have h1 : splitWsCore (c :: cs) =
      ([], if (splitWsCore cs).1.isEmpty then (splitWsCore cs).2
           else (splitWsCore cs).1 :: (splitWsCore cs).2) := by
    rw [splitWsCore]
    simp [hc]
  show (let p := splitWsCore (c :: cs);
      if p.1.isEmpty then p.2 else p.1 :: p.2) =
    (let p := splitWsCore cs;
      if p.1.isEmpty then p.2 else p.1 :: p.2)
  simp only [h1]
  simp

theorem splitWs_cons_nonws {c : Char} (hc : isWsChar c = false) (cs : Str) :
    splitWs (c :: cs) =
      (c :: cs.takeWhile (fun x => !isWsChar x)) ::
        splitWs (cs.dropWhile (fun x => !isWsChar x)) := by
  have h1 : splitWsCore (c :: cs) =
      (c :: (splitWsCore cs).1, (splitWsCore cs).2) := by
    rw [splitWsCore]
    simp [hc]
  show (let p := splitWsCore (c :: cs);
      if p.1.isEmpty then p.2 else p.1 :: p.2) =
    (c :: cs.takeWhile (fun x => !isWsChar x)) ::
      splitWs (cs.dropWhile (fun x => !isWsChar x))
  simp only [h1, splitWsCore_eq cs]
  simp

/-- Every fragment produced by `splitWs` is nonempty and consists of
non-whitespace characters of the input. -/
theorem splitWs_sound :
    ∀ (s : Str) (t : Str), t ∈ splitWs s →
      t ≠ [] ∧ ∀ c ∈ t, isWsChar c = false ∧ c ∈ s
  | [], t, ht => by cases ht
  | c :: cs, t, ht => by
    by_cases hc : isWsChar c
    · rw [splitWs_cons_ws hc] at ht
      obtain ⟨h1, h2⟩ := splitWs_sound cs t ht
      exact ⟨h1, fun x hx =>
        ⟨(h2 x hx).1, List.mem_cons_of_mem _ (h2 x hx).2⟩⟩
    · rw [splitWs_cons_nonws (by simpa using hc)] at ht
      rcases List.mem_cons.mp ht with rfl | hmem
      · refine ⟨by simp, fun x hx => ?_⟩
        rcases List.mem_cons.mp hx with rfl | hx
        · exact ⟨by simpa using hc, List.mem_cons_self _ _⟩
        · have hpx := List.mem_takeWhile_imp hx
          refine ⟨by simpa using hpx, List.mem_cons_of_mem _ ?_⟩
          exact (List.takeWhile_sublist _).mem hx
      · obtain ⟨h1, h2⟩ := splitWs_sound
          (cs.dropWhile (fun x => !isWsChar x)) t hmem
        refine ⟨h1, fun x hx => ⟨(h2 x hx).1, List.mem_cons_of_mem _ ?_⟩⟩
        exact (List.dropWhile_sublist _).mem (h2 x hx).2
  termination_by s => s.length
  decreasing_by
    · simp
    · simp only [List.length_cons]
      have h9 : (cs.dropWhile (fun x => !isWsChar x)).length ≤ cs.length :=
        (List.dropWhile_sublist _).length_le
      omega

theorem takeWhile_eq_self_of_forall {α : Type} {p : α → Bool} :
    ∀ {l : List α}, (∀ x ∈ l, p x = true) → l.takeWhile p = l
  | [], _ => rfl
  | a :: l, h => by
    rw [List.takeWhile_cons, h a (List.mem_cons_self _ _), if_pos rfl]
    rw [takeWhile_eq_self_of_forall (fun x hx => h x (List.mem_cons_of_mem _ hx))]

theorem dropWhile_eq_nil_of_forall {α : Type} {p : α → Bool} :
    ∀ {l : List α}, (∀ x ∈ l, p x = true) → l.dropWhile p = []
  | [], _ => rfl
  | a :: l, h => by
    rw [List.dropWhile_cons, h a (List.mem_cons_self _ _), if_pos rfl]
    exact dropWhile_eq_nil_of_forall (fun x hx => h x (List.mem_cons_of_mem _ hx))

theorem takeWhile_append_stop {α : Type} (p : α → Bool) (c : α)
    (hc : p c = false) :
    ∀ (l r : List α), (∀ x ∈ l, p x = true) →
      (l ++ c :: r).takeWhile p = l ∧ (l ++ c :: r).dropWhile p = c :: r
  | [], r, _ => by
    constructor
    · rw [List.nil_append, List.takeWhile_cons, hc]
      rfl
    · rw [List.nil_append, List.dropWhile_cons, hc]
      rfl
  | a :: l, r, h => by
    obtain ⟨h1, h2⟩ := takeWhile_append_stop p c hc
      l r (fun x hx => h x (List.mem_cons_of_mem _ hx))
    constructor
    · rw [List.cons_append, List.takeWhile_cons,
        h a (List.mem_cons_self _ _), if_pos rfl, h1]
    · rw [List.cons_append, List.dropWhile_cons,
        h a (List.mem_cons_self _ _), if_pos rfl, h2]

/-- Splitting the space-join of nonempty whitespace-free fragments
recovers the fragments. -/
theorem splitWs_joinSp :
    ∀ {ts : List Str},
      (∀ t ∈ ts, t ≠ [] ∧ ∀ c ∈ t, isWsChar c = false) →
      splitWs (joinSp ts) = ts
  | [], _ => rfl
  | [t], h => by
    obtain ⟨hne, hnws⟩ := h t (List.mem_singleton.mpr rfl)
    show splitWs t = [t]
    rw [splitWs, splitWsCore_eq,
      takeWhile_eq_self_of_forall (by intro x hx; simpa using hnws x hx),
      dropWhile_eq_nil_of_forall (by intro x hx; simpa using hnws x hx),
      splitWs_nil]
    simp [hne]
  | t :: t' :: ts, h => by
    obtain ⟨hne, hnws⟩ := h t (List.mem_cons_self _ _)
    have hrest : ∀ x ∈ (t' :: ts), x ≠ [] ∧ ∀ c ∈ x, isWsChar c = false :=
      fun x hx => h x (List.mem_cons_of_mem _ hx)
    show splitWs (t ++ ' ' :: joinSp (t' :: ts)) = t :: t' :: ts
    obtain ⟨htake, hdrop⟩ := takeWhile_append_stop
      (fun c => !isWsChar c) ' ' (by decide)
      t (joinSp (t' :: ts))
      (by intro x hx; simpa using hnws x hx)
    rw [splitWs, splitWsCore_eq, htake, hdrop,
      splitWs_cons_ws (by decide), splitWs_joinSp hrest]
    simp [hne]

theorem scanAux_nil (cur : Str) :
    scanAux [] cur = if cur.isEmpty then [] else [cur.reverse] := rfl

theorem scanAux_cons_word {c : Char} (hw : isWordChar c = true)
    (cs cur : Str) : scanAux (c :: cs) cur = scanAux cs (c :: cur) := by
  rw [scanAux.eq_def]
  simp [hw]

theorem scanAux_cons_hyphen_empty (cs : Str) {cur : Str}
    (hcur : cur.isEmpty = true) : scanAux ('-' :: cs) cur = scanAux cs [] := by
  rw [scanAux.eq_def]
  simp [hcur, show isWordChar '-' = false from rfl]

theorem scanAux_cons_hyphen_word {d : Char} (hd : isWordChar d = true)
    (cs' : Str) {cur : Str} (hcur : cur.isEmpty = false) :
    scanAux ('-' :: d :: cs') cur = scanAux (d :: cs') ('-' :: cur) := by
  rw [scanAux.eq_def]
  simp [hd, hcur, show isWordChar '-' = false from rfl]

theorem scanAux_cons_hyphen_nonword {d : Char} (hd : isWordChar d = false)
    (cs' : Str) {cur : Str} (hcur : cur.isEmpty = false) :
    scanAux ('-' :: d :: cs') cur = cur.reverse :: scanAux (d :: cs') [] := by
  rw [scanAux.eq_def]
  simp [hd, hcur, show isWordChar '-' = false from rfl]

theorem scanAux_hyphen_nil {cur : Str} (hcur : cur.isEmpty = false) :
    scanAux ['-'] cur = [cur.reverse] := by
  rw [scanAux.eq_def]
  simp [hcur, show isWordChar '-' = false from rfl]

theorem scanAux_cons_other {c : Char} (hw : isWordChar c = false)
    (hh : (c == '-') = false) (cs : Str) {cur : Str}
    (hcur : cur.isEmpty = true) : scanAux (c :: cs) cur = scanAux cs [] := by
  rw [scanAux.eq_def]
  simp [hw, hh, hcur]

theorem scanAux_cons_other' {c : Char} (hw : isWordChar c = false)
    (hh : (c == '-') = false) (cs : Str) {cur : Str}
    (hcur : cur.isEmpty = false) :
    scanAux (c :: cs) cur = cur.reverse :: scanAux cs [] := by
  rw [scanAux.eq_def]
  simp [hw, hh, hcur]

/-- Every character of every token found by the scanner comes from the
input (or from the token under construction). -/
theorem scanAux_chars :
    ∀ (s cur t : Str), t ∈ scanAux s cur → ∀ c ∈ t, c ∈ s ∨ c ∈ cur
  | [], cur, t, ht, c, hc => by
    rw [scanAux_nil] at ht
    split at ht
    · cases ht
    · rw [List.mem_singleton.mp ht] at hc
      exact Or.inr (List.mem_reverse.mp hc)
  | c0 :: cs, cur, t, ht, c, hc => by
    by_cases hw : isWordChar c0
    · rw [scanAux_cons_word hw] at ht
      rcases scanAux_chars cs (c0 :: cur) t ht c hc with h | h
      · exact Or.inl (List.mem_cons_of_mem _ h)
      · rcases List.mem_cons.mp h with rfl | h
        · exact Or.inl (List.mem_cons_self _ _)
        · exact Or.inr h
    · by_cases hh : c0 = '-'
      · subst hh
        cases hcur : cur.isEmpty with
        | true =>
          rw [scanAux_cons_hyphen_empty cs hcur] at ht
          rcases scanAux_chars cs [] t ht c hc with h | h
          · exact Or.inl (List.mem_cons_of_mem _ h)
          · cases h
        | false =>
          cases cs with
          | nil =>
            rw [scanAux_hyphen_nil hcur] at ht
            rw [List.mem_singleton.mp ht] at hc
            exact Or.inr (List.mem_reverse.mp hc)
          | cons d cs' =>
            by_cases hd : isWordChar d
            · rw [scanAux_cons_hyphen_word hd cs' hcur] at ht
              rcases scanAux_chars (d :: cs') ('-' :: cur) t ht c hc with h | h
              · exact Or.inl (List.mem_cons_of_mem _ h)
              · rcases List.mem_cons.mp h with rfl | h
                · exact Or.inl (List.mem_cons_self _ _)
                · exact Or.inr h
            · rw [scanAux_cons_hyphen_nonword (by simpa using hd) cs' hcur] at ht
              rcases List.mem_cons.mp ht with rfl | hmem
              · exact Or.inr (List.mem_reverse.mp hc)
              · rcases scanAux_chars (d :: cs') [] t hmem c hc with h | h
                · exact Or.inl (List.mem_cons_of_mem _ h)
                · cases h
      · have hh' : (c0 == '-') = false := by
          simpa using hh
        cases hcur : cur.isEmpty with
        | true =>
          rw [scanAux_cons_other (by simpa using hw) hh' cs hcur] at ht
          rcases scanAux_chars cs [] t ht c hc with h | h
          · exact Or.inl (List.mem_cons_of_mem _ h)
          · cases h
        | false =>
          rw [scanAux_cons_other' (by simpa using hw) hh' cs hcur] at ht
          rcases List.mem_cons.mp ht with rfl | hmem
          · exact Or.inr (List.mem_reverse.mp hc)
          · rcases scanAux_chars cs [] t hmem c hc with h | h
            · exact Or.inl (List.mem_cons_of_mem _ h)
            · cases h

theorem mem_joinSp :
    ∀ {ts : List Str} {c : Char}, c ∈ joinSp ts → c = ' ' ∨ ∃ t ∈ ts, c ∈ t
  | [], c, h => by cases h
  | [t], c, h => Or.inr ⟨t, List.mem_singleton.mpr rfl, h⟩
  | t :: t' :: ts, c, h => by
    rw [show joinSp (t :: t' :: ts) = t ++ ' ' :: joinSp (t' :: ts) from rfl] at h
    rcases List.mem_append.mp h with h | h
    · exact Or.inr ⟨t, List.mem_cons_self _ _, h⟩
    · rcases List.mem_cons.mp h with rfl | h
      · exact Or.inl rfl
      · rcases mem_joinSp h with h | ⟨u, hu, hc⟩
        · exact Or.inl h
        · exact Or.inr ⟨u, List.mem_cons_of_mem _ hu, hc⟩

theorem indexer_tokenize_props (x : Str) :
    ∀ t ∈ Indexer.tokenize x,
      (t ≠ [] ∧ ∀ c ∈ t, isWsChar c = false) ∧
      (∀ c ∈ t, isPunctChar c = false ∧ c.toLower = c) := by
  intro t ht
  have ht2 : t ∈ (splitWs ((x.map Char.toLower).filter
      (fun c => !isPunctChar c))).filter
      (fun t => !(Indexer.STOPWORDS.contains t)) := ht
  have hmem := List.mem_of_mem_filter ht2
  obtain ⟨h1, h2⟩ := splitWs_sound _ t hmem
  refine ⟨⟨h1, fun c hc => (h2 c hc).1⟩, fun c hc => ?_⟩
  have hfil := (h2 c hc).2
  rw [List.mem_filter] at hfil
  obtain ⟨c0, _, rfl⟩ := List.mem_map.mp hfil.1
  exact ⟨by simpa using hfil.2, toLower_toLower c0⟩

theorem indexer_tokenize_idem (x : Str) :
    Indexer.tokenize (joinSp (Indexer.tokenize x)) = Indexer.tokenize x := by
  have hprops := indexer_tokenize_props x
  have hJ1 : (joinSp (Indexer.tokenize x)).map Char.toLower =
      joinSp (Indexer.tokenize x) := by
    apply map_eq_self_of_forall
    intro c hc
    rcases mem_joinSp hc with rfl | ⟨t, ht, hct⟩
    · decide
    · exact ((hprops t ht).2 c hct).2
  have hJ2 : (joinSp (Indexer.tokenize x)).filter (fun c => !isPunctChar c) =
      joinSp (Indexer.tokenize x) := by
    apply List.filter_eq_self.mpr
    intro c hc
    rcases mem_joinSp hc with rfl | ⟨t, ht, hct⟩
    · decide
    · simp [((hprops t ht).2 c hct).1]
  have hJ3 : splitWs (joinSp (Indexer.tokenize x)) = Indexer.tokenize x :=
    splitWs_joinSp (fun t ht => (hprops t ht).1)
  show ((splitWs (((joinSp (Indexer.tokenize x)).map Char.toLower).filter
      (fun c => !isPunctChar c))).filter
      (fun t => !(Indexer.STOPWORDS.contains t))) = Indexer.tokenize x
  rw [hJ1, hJ2, hJ3]
  apply List.filter_eq_self.mpr
  intro t ht
  have ht2 : t ∈ List.filter (fun t => !(Indexer.STOPWORDS.contains t))
      (splitWs ((x.map Char.toLower).filter (fun c => !isPunctChar c))) := ht
  exact (List.mem_filter.mp ht2).2

theorem scanAux_word_run :
    ∀ (t rest cur : Str), (∀ c ∈ t, isWordChar c = true) →
      scanAux (t ++ rest) cur = scanAux rest (t.reverse ++ cur)
  | [], rest, cur, _ => by simp
  | c :: t', rest, cur, h => by
    rw [List.cons_append, scanAux_cons_word (h c (List.mem_cons_self _ _)),
      scanAux_word_run t' rest (c :: cur)
        (fun x hx => h x (List.mem_cons_of_mem _ hx))]
    simp

theorem isWordChar_of_isAlphaChar {c : Char} (h : isAlphaChar c = true) :
    isWordChar c = true := by
  simp only [isAlphaChar, Bool.or_eq_true, Bool.and_eq_true,
    decide_eq_true_eq] at h
  simp only [isWordChar, Bool.or_eq_true, Bool.and_eq_true,
    decide_eq_true_eq]
  tauto

theorem findallW_joinSp :
    ∀ {ts : List Str},
      (∀ t ∈ ts, t ≠ [] ∧ ∀ c ∈ t, isAlphaChar c = true) →
      findallW (joinSp ts) = ts
  | [], _ => rfl
  | [t], h => by
    obtain ⟨hne, halpha⟩ := h t (List.mem_singleton.mpr rfl)
    have hrun := scanAux_word_run t [] []
      (fun c hc => isWordChar_of_isAlphaChar (halpha c hc))
    rw [List.append_nil] at hrun
    rw [show findallW (joinSp [t]) = scanAux t [] from rfl, hrun, scanAux_nil]
    simp [hne]
  | t :: t' :: ts, h => by
    obtain ⟨hne, halpha⟩ := h t (List.mem_cons_self _ _)
    have hrest : ∀ x ∈ (t' :: ts), x ≠ [] ∧ ∀ c ∈ x, isAlphaChar c = true :=
      fun x hx => h x (List.mem_cons_of_mem _ hx)
    have hrun := scanAux_word_run t (' ' :: joinSp (t' :: ts)) []
      (fun c hc => isWordChar_of_isAlphaChar (halpha c hc))
    rw [show findallW (joinSp (t :: t' :: ts)) =
      scanAux (t ++ ' ' :: joinSp (t' :: ts)) [] from rfl, hrun,
      List.append_nil]
    have hcur : (t.reverse).isEmpty = false := by
      cases t with
      | nil => exact absurd rfl hne
      | cons a t'' => simp
    rw [scanAux_cons_other' (by decide) (by decide) _ hcur,
      List.reverse_reverse,
      show scanAux (joinSp (t' :: ts)) [] = findallW (joinSp (t' :: ts))
        from rfl,
      findallW_joinSp hrest]

theorem engine_tokenize_props (x : Str) :
    ∀ t ∈ TextProcessor.tokenize x,
      (t ≠ [] ∧ ∀ c ∈ t, isAlphaChar c = true) ∧ ∀ c ∈ t, c.toLower = c := by
  intro t ht
  have ht2 : t ∈ (findallW (x.map Char.toLower)).filter
      (fun t => TextProcessor.isalphaStr t &&
        !(TextProcessor.STOPWORDS.contains t)) := ht
  have hmem := List.mem_of_mem_filter ht2
  have hp := List.of_mem_filter ht2
  rw [Bool.and_eq_true] at hp
  have halpha := hp.1
  rw [TextProcessor.isalphaStr, Bool.and_eq_true] at halpha
  constructor
  · refine ⟨by simpa using halpha.1, fun c hc => ?_⟩
    have hall := halpha.2
    rw [List.all_eq_true] at hall
    exact hall c hc
  · intro c hc
    rcases scanAux_chars (x.map Char.toLower) [] t hmem c hc with h | h
    · obtain ⟨c0, _, rfl⟩ := List.mem_map.mp h
      exact toLower_toLower c0
    · cases h

theorem engine_tokenize_idem (x : Str) :
    TextProcessor.tokenize (joinSp (TextProcessor.tokenize x)) =
      TextProcessor.tokenize x := by
  have hprops := engine_tokenize_props x
  have hJ : (joinSp (TextProcessor.tokenize x)).map Char.toLower =
      joinSp (TextProcessor.tokenize x) := by
    apply map_eq_self_of_forall
    intro c hc
    rcases mem_joinSp hc with rfl | ⟨t, ht, hct⟩
    · decide
    · exact (hprops t ht).2 c hct
  show ((findallW ((joinSp (TextProcessor.tokenize x)).map Char.toLower)).filter
      (fun t => TextProcessor.isalphaStr t &&
        !(TextProcessor.STOPWORDS.contains t))) = TextProcessor.tokenize x
  rw [hJ, findallW_joinSp (fun t ht => (hprops t ht).1)]
  apply List.filter_eq_self.mpr
  intro t ht
  have ht2 : t ∈ List.filter (fun t => TextProcessor.isalphaStr t &&
      !(TextProcessor.STOPWORDS.contains t))
      (findallW (x.map Char.toLower)) := ht
  exact (List.mem_filter.mp ht2).2

/-- Claim C10: both tokenizers are idempotent — re-tokenizing the
space-join of the produced tokens reproduces the token sequence
exactly, for the indexer's `tokenize` and the engine's
`TextProcessor.tokenize` alike. -/
theorem tokenize_idempotent (x : Str) :
    Indexer.tokenize (joinSp (Indexer.tokenize x)) = Indexer.tokenize x ∧
    TextProcessor.tokenize (joinSp (TextProcessor.tokenize x)) =
      TextProcessor.tokenize x :=
  ⟨indexer_tokenize_idem x, engine_tokenize_idem x⟩

/-- Counterexample to C3 as stated: on the input `123` the indexer's
tokenizer keeps the numeric token while the engine's tokenizer drops it
(`isalpha` filter), so the two tokenizers are not extensionally
equal. -/
theorem tokenizers_differ_counterexample :
    Indexer.tokenize "123".toList = ["123".toList] ∧
    TextProcessor.tokenize "123".toList = [] ∧
    Indexer.tokenize "123".toList ≠ TextProcessor.tokenize "123".toList :=
  ⟨by decide, by decide, by decide⟩

theorem isWsChar_eq_false_of_alpha {c : Char} (h : isAlphaChar c = true) :
    isWsChar c = false := by
  simp only [isAlphaChar, Bool.or_eq_true, Bool.and_eq_true,
    decide_eq_true_eq] at h
  by_contra hws
  rw [Bool.not_eq_false] at hws
  simp only [isWsChar, Bool.or_eq_true, beq_iff_eq] at hws
  rcases hws with ((((rfl | rfl) | rfl) | rfl) | rfl) | rfl <;>
    revert h <;> decide

/-- On alphabetic/space strings, the regex scanner agrees with
whitespace splitting: the token under construction is glued onto the
first fragment. -/
theorem scanAux_eq_splitWs :
    ∀ (s : Str), (∀ c ∈ s, isAlphaChar c = true ∨ c = ' ') → ∀ (cur : Str),
      scanAux s cur =
        if (cur.reverse ++ (splitWsCore s).1).isEmpty then (splitWsCore s).2
        else (cur.reverse ++ (splitWsCore s).1) :: (splitWsCore s).2
  | [], _, cur => by
    cases cur <;> simp [scanAux_nil, splitWsCore]
  | c :: cs, hs, cur => by
    have hcs := fun x hx => hs x (List.mem_cons_of_mem _ hx)
    rcases hs c (List.mem_cons_self _ _) with hca | hsp
    · have hnws : isWsChar c = false := isWsChar_eq_false_of_alpha hca
      have h1 : splitWsCore (c :: cs) =
          (c :: (splitWsCore cs).1, (splitWsCore cs).2) := by
        rw [splitWsCore]
        simp [hnws]
      rw [scanAux_cons_word (isWordChar_of_isAlphaChar hca),
        scanAux_eq_splitWs cs hcs (c :: cur), h1]
      simp [List.append_assoc]
    · subst hsp
      have h1 : splitWsCore (' ' :: cs) =
          ([], if (splitWsCore cs).1.isEmpty then (splitWsCore cs).2
               else (splitWsCore cs).1 :: (splitWsCore cs).2) := by
        rw [splitWsCore]
        simp [show isWsChar ' ' = true from rfl]
      cases hcur : cur.isEmpty with
      | true =>
        have hcnil : cur = [] := by
          cases cur
          · rfl
          · cases hcur
        subst hcnil
        rw [scanAux_cons_other (by decide) (by decide) cs
            (show ([] : Str).isEmpty = true from rfl),
          scanAux_eq_splitWs cs hcs [], h1]
        simp
      | false =>
        have hrev : (cur.reverse).isEmpty = false := by
          cases cur
          · cases hcur
          · simp
        rw [scanAux_cons_other' (by decide) (by decide) cs hcur,
          scanAux_eq_splitWs cs hcs [], h1]
        simp [hrev]

theorem findallW_eq_splitWs {x : Str}
    (halpha : ∀ c ∈ x, isAlphaChar c = true ∨ c = ' ') :
    findallW x = splitWs x := by
  rw [findallW, scanAux_eq_splitWs x halpha []]
  rw [splitWs]
  simp

/-- Claim C3 (amended): the two tokenizers agree — and both equal plain
whitespace splitting — on strings of lowercase letters and spaces none
of whose fragments lies in either stopword list; in general they are
different functions (see the `123` counterexample). -/
theorem tokenizers_agree_on_plain_text (x : Str)
    (hchars : ∀ c ∈ x, (97 ≤ c.toNat ∧ c.toNat ≤ 122) ∨ c = ' ')
    (hstop1 : ∀ t ∈ splitWs x, ¬(t ∈ Indexer.STOPWORDS))
    (hstop2 : ∀ t ∈ splitWs x, ¬(t ∈ TextProcessor.STOPWORDS)) :
    Indexer.tokenize x = TextProcessor.tokenize x ∧
    Indexer.tokenize x = splitWs x := by
  have halpha : ∀ c ∈ x, isAlphaChar c = true ∨ c = ' ' := by
    intro c hc
    rcases hchars c hc with h | h
    · left
      simp only [isAlphaChar, Bool.or_eq_true, Bool.and_eq_true,
        decide_eq_true_eq]
      exact Or.inl h
    · exact Or.inr h
  have hlower : x.map Char.toLower = x := by
    apply map_eq_self_of_forall
    intro c hc
    apply toLower_eq_self_of_not_upper
    rcases hchars c hc with h | rfl
    · omega
    · decide
  have hpunctfact : ∀ c ∈ punctuationChars,
      (c.toNat < 97 ∨ 122 < c.toNat) ∧ c ≠ ' ' := by decide
  have hpunct : x.filter (fun c => !isPunctChar c) = x := by
    apply List.filter_eq_self.mpr
    intro c hc
    rw [Bool.not_eq_true']
    by_contra hp
    rw [Bool.not_eq_false] at hp
    have hcmem : c ∈ punctuationChars := by
      rw [isPunctChar] at hp
      simpa using hp
    rcases hchars c hc with h | rfl
    · rcases (hpunctfact c hcmem).1 with h' | h' <;> omega
    · exact (hpunctfact _ hcmem).2 rfl
  have hsplit : findallW x = splitWs x := findallW_eq_splitWs halpha
  have hidx : Indexer.tokenize x = splitWs x := by
    show ((splitWs ((x.map Char.toLower).filter (fun c => !isPunctChar c))).filter
      (fun t => !(Indexer.STOPWORDS.contains t))) = splitWs x
    rw [hlower, hpunct]
    apply List.filter_eq_self.mpr
    intro t ht
    simpa using hstop1 t ht
  have heng : TextProcessor.tokenize x = splitWs x := by
    show ((findallW (x.map Char.toLower)).filter
      (fun t => TextProcessor.isalphaStr t &&
        !(TextProcessor.STOPWORDS.contains t))) = splitWs x
    rw [hlower, hsplit]
    apply List.filter_eq_self.mpr
    intro t ht
    obtain ⟨hne, hin⟩ := splitWs_sound x t ht
    rw [Bool.and_eq_true]
    constructor
    · rw [TextProcessor.isalphaStr, Bool.and_eq_true]
      constructor
      · simpa using hne
      · rw [List.all_eq_true]
        intro c hc
        rcases halpha c (hin c hc).2 with h | rfl
        · exact h
        · exact absurd (hin ' ' hc).1 (by decide)
    · simpa using hstop2 t ht
  exact ⟨hidx.trans heng.symm, hidx⟩

/-- Witness for C3 (amended): on `united states chocolate` — lowercase
letters and spaces, no stopwords — the two tokenizers agree. -/
theorem tokenizers_agree_witness :
    Indexer.tokenize "united states chocolate".toList =
      TextProcessor.tokenize "united states chocolate".toList ∧
    Indexer.tokenize "united states chocolate".toList =
      ["united".toList, "states".toList, "chocolate".toList] := by
  have h := tokenizers_agree_on_plain_text "united states chocolate".toList
    (by decide) (by decide) (by decide)
  exact ⟨h.1, by rw [h.2]; rfl⟩

namespace SearchEngine

theorem sortInsert_perm {α : Type} (key : α → ℚ) (x : α) :
    ∀ l : List α, (sortInsert key x l).Perm (x :: l)
  | [] => List.Perm.refl _
  | y :: ys => by
    rw [sortInsert]
    split
    · exact List.Perm.refl _
    · exact ((sortInsert_perm key x ys).cons y).trans
        (List.Perm.swap x y ys)

theorem sortDesc_perm {α : Type} (key : α → ℚ) :
    ∀ l : List α, (sortDesc key l).Perm l
  | [] => List.Perm.refl _
  | x :: xs =>
    (sortInsert_perm key x (sortDesc key xs)).trans
      ((sortDesc_perm key xs).cons x)

theorem sortInsert_pairwise {α : Type} (key : α → ℚ) (x : α) :
    ∀ {l : List α}, l.Pairwise (fun a b => key b ≤ key a) →
      (sortInsert key x l).Pairwise (fun a b => key b ≤ key a)
  | [], _ => by simp [sortInsert]
  | y :: ys, hp => by
    rw [List.pairwise_cons] at hp
    rw [sortInsert]
    split
    · rename_i hyx
      rw [List.pairwise_cons]
      refine ⟨fun z hz => ?_, List.pairwise_cons.mpr hp⟩
      rcases List.mem_cons.mp hz with rfl | hz
      · exact hyx
      · exact le_trans (hp.1 z hz) hyx
    · rename_i hyx
      rw [List.pairwise_cons]
      constructor
      · intro z hz
        rcases List.mem_cons.mp
            ((sortInsert_perm key x ys).mem_iff.mp hz) with rfl | hz
        · exact le_of_not_le hyx
        · exact hp.1 z hz
      · exact sortInsert_pairwise key x hp.2

theorem sortDesc_pairwise {α : Type} (key : α → ℚ) :
    ∀ l : List α, (sortDesc key l).Pairwise (fun a b => key b ≤ key a)
  | [] => List.Pairwise.nil
  | x :: xs => sortInsert_pairwise key x (sortDesc_pairwise key xs)

/-- The stable descending sort is determined by the underlying set when
the sort keys are injective on it: any two enumerations of the same
candidate set sort to the same list. -/
theorem sortDesc_eq_of_perm {α : Type} (key : α → ℚ) {l₁ l₂ : List α}
    (hperm : l₁.Perm l₂) (hnd : l₁.Nodup)
    (hinj : ∀ a ∈ l₁, ∀ b ∈ l₁, key a = key b → a = b) :
    sortDesc key l₁ = sortDesc key l₂ := by
  haveI : IsAntisymm α (fun a b => key b < key a ∨ a = b) := ⟨by
    intro a b hab hba
    rcases hab with h | h
    · rcases hba with h' | h'
      · exact absurd h' (lt_asymm h)
      · exact h'.symm
    · exact h⟩
  have hps : (sortDesc key l₁).Perm (sortDesc key l₂) :=
    (sortDesc_perm key l₁).trans (hperm.trans (sortDesc_perm key l₂).symm)
  have hsorted : ∀ (l : List α), l.Perm l₁ →
      (sortDesc key l).Pairwise (fun a b => key b < key a ∨ a = b) := by
    intro l hl
    have hnd' : (sortDesc key l).Nodup :=
      ((sortDesc_perm key l).trans hl).nodup_iff.mpr hnd
    have hmemb : ∀ a ∈ sortDesc key l, a ∈ l₁ :=
      fun a ha => hl.subset ((sortDesc_perm key l).subset ha)
    have hand := (sortDesc_pairwise key l).and hnd'
    refine hand.imp_of_mem ?_
    intro a b ha hb hab
    by_cases heq : key a = key b
    · exact Or.inr (hinj a (hmemb a ha) b (hmemb b hb) heq)
    · exact Or.inl (lt_of_le_of_ne hab.1 (fun hc => heq (hc.symm ▸ rfl)))
  have hs1 := hsorted l₁ (List.Perm.refl _)
  have hs2 := hsorted l₂ hperm.symm
  exact List.eq_of_perm_of_sorted hps hs1 hs2

end SearchEngine

theorem mapM_eq_some_map {α β : Type} (f : α → Option β) (g : α → β) :
    ∀ (l : List α), (∀ a ∈ l, f a = some (g a)) →
      (l.mapM f : Option (List β)) = some (l.map g)
  | [], _ => rfl
  | a :: l, h => by
    rw [List.mapM_cons, h a (List.mem_cons_self _ _),
      mapM_eq_some_map f g l (fun x hx => h x (List.mem_cons_of_mem _ hx))]
    rfl

/-- Claim C5 (amended): per-document scores are a pure function of the
indexes and store — re-running a query cannot change any score or the
result set — and whenever the rounded sort keys are injective on the
candidate set the full ranked sequence is also independent of the
(unspecified) iteration order of the `matching_docs` set.  (Ties are
broken by that iteration order; see the counterexample.) -/
theorem rank_results_deterministic (ln : ℚ → ℚ)
    (indexes : SearchEngine.EngineIndexes) (products : List (Str × Doc))
    (query : Str) (qtoks : List Str) (o₁ o₂ : List Str)
    (hnd : o₁.Nodup) (hnd₂ : o₂.Nodup)
    (hext : ∀ u : Str, u ∈ o₁ ↔ u ∈ o₂)
    (hsome : ∀ u ∈ o₁, ∃ sc,
      SearchEngine.compute_final_score ln indexes products u query qtoks =
        some sc)
    (hinj : ∀ u ∈ o₁, ∀ v ∈ o₁,
      roundTo 3 (((SearchEngine.compute_final_score ln indexes products u
          query qtoks).map SearchEngine.Scores.final_score).getD 0) =
        roundTo 3 (((SearchEngine.compute_final_score ln indexes products v
          query qtoks).map SearchEngine.Scores.final_score).getD 0) →
      u = v) :
    SearchEngine.rank_results ln indexes products query qtoks o₁ =
      SearchEngine.rank_results ln indexes products query qtoks o₂ := by
  have hperm : o₁.Perm o₂ := (List.perm_ext_iff_of_nodup hnd hnd₂).mpr hext
  have hg : ∀ u ∈ o₁,
      (SearchEngine.compute_final_score ln indexes products u query
        qtoks).map (fun s => (u, roundTo 3 s.final_score)) =
      some (u, roundTo 3 (((SearchEngine.compute_final_score ln indexes
        products u query qtoks).map SearchEngine.Scores.final_score).getD 0)) := by
    intro u hu
    obtain ⟨sc, hsc⟩ := hsome u hu
    rw [hsc]
    rfl
  rw [SearchEngine.rank_results, SearchEngine.rank_results,
    mapM_eq_some_map _ _ o₁ (fun u hu => hg u hu),
    mapM_eq_some_map _ _ o₂ (fun u hu => hg u ((hext u).mpr hu))]
  simp only [Option.map_some']
  refine congrArg some ?_
  apply SearchEngine.sortDesc_eq_of_perm (fun (p : Str × ℚ) => p.2)
    (hperm.map _)
  · exact hnd.map_on (fun a _ b _ heq => congrArg Prod.fst heq)
  · intro a ha b hb hkey
    obtain ⟨u, hu, rfl⟩ := List.mem_map.mp ha
    obtain ⟨v, hv, rfl⟩ := List.mem_map.mp hb
    have := hinj u hu v hv hkey
    subst this
    rfl

theorem tie_bm25 (ri : Str → Option SearchEngine.ReviewData) {u : Str}
    (hl : List.lookup u tieProducts = some (tieDoc u)) :
    SearchEngine.compute_bm25_score (fun q => q)
      ⟨fun _ => [], fun _ => [], fun _ => [],
       fun t => if t = "france".toList then ["u1".toList, "u2".toList]
                else [], ri, []⟩
      tieProducts u ["france".toList] = some 0 := by
  rw [SearchEngine.compute_bm25_score, hl]
  simp only [List.foldl_cons, List.foldl_nil]
  have hA : SearchEngine.doc_count
      ⟨fun _ => [], fun _ => [], fun _ => [],
       fun t => if t = "france".toList then ["u1".toList, "u2".toList]
                else [], ri, []⟩ "france".toList = 0 := rfl
  rw [if_pos hA]

theorem tie_final_score (ri : Str → Option SearchEngine.ReviewData)
    {u : Str} (hl : List.lookup u tieProducts = some (tieDoc u))
    (rv : ℚ) (hrv : (match ri u with
      | none => (0:ℚ)
      | some rd => (rd.mean_mark * (3/10) +
          ((min rd.total_reviews 10 : ℕ) : ℚ) * (1/10)) * (3/10)) = rv) :
    SearchEngine.compute_final_score (fun q => q)
      ⟨fun _ => [], fun _ => [], fun _ => [],
       fun t => if t = "france".toList then ["u1".toList, "u2".toList]
                else [], ri, []⟩
      tieProducts u "france".toList ["france".toList] =
      some ⟨0, 0, 0, rv, rv⟩ := by
  rw [SearchEngine.compute_final_score, hl, tie_bm25 ri hl]
  dsimp only [tieDoc, Option.getD_some]
  rw [if_neg (by decide), hrv]
  rw [show TextProcessor.tokenize ([] : Str) = [] from rfl]
  rw [show (["france".toList].countP (fun t => decide (t ∈ ([] : List Str)))) = 0
    from rfl]
  simp only [Option.getD_some, Option.some.injEq, SearchEngine.Scores.mk.injEq]
  exact ⟨by norm_num, trivial, by norm_num, trivial, by norm_num⟩

theorem roundTo_zero (d : ℕ) : roundTo d 0 = 0 := by
  rw [roundTo]
  norm_num

theorem tie_rank_run (o : List Str)
    (h : ∀ u ∈ o, List.lookup u tieProducts = some (tieDoc u)) :
    SearchEngine.rank_results (fun q => q) tieIndexes tieProducts
      "france".toList ["france".toList] o =
      some (SearchEngine.sortDesc (fun (p : Str × ℚ) => p.2)
        (o.map (fun u => (u, 0)))) := by
  rw [SearchEngine.rank_results,
    mapM_eq_some_map _ (fun u => (u, (0:ℚ))) o ?_]
  · simp only [Option.map_some']
  · intro u hu
    have hfs : SearchEngine.compute_final_score (fun q => q) tieIndexes
        tieProducts u "france".toList ["france".toList] =
        some ⟨0, 0, 0, 0, 0⟩ :=
      tie_final_score (fun _ => none) (h u hu) 0 rfl
    rw [hfs, Option.map_some']
    rw [show SearchEngine.Scores.final_score ⟨0, 0, 0, 0, 0⟩ = 0 from rfl,
      roundTo_zero]

/-- Counterexample to C5 as stated: with two candidates that tie at
score 0, the ranked output follows the iteration order of the
`matching_docs` set — the two enumerations of the same candidate set
produce different ranked sequences, so there is no deterministic
tie-break (Python's set iteration order is not specified across runs,
string hashing being per-process randomised). -/
theorem rank_results_tie_counterexample :
    SearchEngine.rank_results (fun q => q) tieIndexes tieProducts
      "france".toList ["france".toList] ["u1".toList, "u2".toList] =
      some [("u1".toList, (0:ℚ)), ("u2".toList, 0)] ∧
    SearchEngine.rank_results (fun q => q) tieIndexes tieProducts
      "france".toList ["france".toList] ["u2".toList, "u1".toList] =
      some [("u2".toList, (0:ℚ)), ("u1".toList, 0)] ∧
    List.Perm ["u1".toList, "u2".toList] ["u2".toList, "u1".toList] ∧
    SearchEngine.filter_any_token tieIndexes ["france".toList]
      "u1".toList = true ∧
    SearchEngine.filter_any_token tieIndexes ["france".toList]
      "u2".toList = true ∧
    SearchEngine.rank_results (fun q => q) tieIndexes tieProducts
        "france".toList ["france".toList] ["u1".toList, "u2".toList] ≠
      SearchEngine.rank_results (fun q => q) tieIndexes tieProducts
        "france".toList ["france".toList] ["u2".toList, "u1".toList] := by
  have hall : ∀ (a b : Str), ∀ u ∈ [a, b],
      u ∈ ["u1".toList, "u2".toList] →
      List.lookup u tieProducts = some (tieDoc u) := by
    intro a b u _ hu
    rcases List.mem_cons.mp hu with rfl | hu
    · rfl
    · rw [List.mem_singleton] at hu
      subst hu
      rfl
  have h12 := tie_rank_run ["u1".toList, "u2".toList]
    (fun u hu => hall _ _ u hu hu)
  have h21 := tie_rank_run ["u2".toList, "u1".toList]
    (by
      intro u hu
      refine hall "u2".toList "u1".toList u hu ?_
      rcases List.mem_cons.mp hu with rfl | hu
      · exact List.mem_cons_of_mem _ (List.mem_singleton.mpr rfl)
      · rw [List.mem_singleton] at hu
        subst hu
        exact List.mem_cons_self _ _)
  have hs12 : SearchEngine.sortDesc (fun (p : Str × ℚ) => p.2)
      (["u1".toList, "u2".toList].map (fun u => (u, (0:ℚ)))) =
      [("u1".toList, (0:ℚ)), ("u2".toList, 0)] := by
    simp [SearchEngine.sortDesc, SearchEngine.sortInsert]
  have hs21 : SearchEngine.sortDesc (fun (p : Str × ℚ) => p.2)
      (["u2".toList, "u1".toList].map (fun u => (u, (0:ℚ)))) =
      [("u2".toList, (0:ℚ)), ("u1".toList, 0)] := by
    simp [SearchEngine.sortDesc, SearchEngine.sortInsert]
  have e12 := h12.trans (congrArg some hs12)
  have e21 := h21.trans (congrArg some hs21)
  refine ⟨e12, e21, ?_, by decide, by decide, ?_⟩
  · exact List.Perm.swap _ _ _
  · intro hc
    rw [e12, e21] at hc
    simp only [Option.some.injEq, List.cons.injEq, Prod.mk.injEq] at hc
    exact absurd hc.1.1 (by decide)

theorem w_score_u1 :
    SearchEngine.compute_final_score (fun q => q) wIndexes tieProducts
      "u1".toList "france".toList ["france".toList] =
      some ⟨0, 0, 0, 0, 0⟩ :=
  tie_final_score
    (fun u => if u = "u2".toList then some ⟨5, 10⟩ else none)
    (show List.lookup "u1".toList tieProducts =
      some (tieDoc "u1".toList) from rfl) 0 rfl

theorem w_score_u2 :
    SearchEngine.compute_final_score (fun q => q) wIndexes tieProducts
      "u2".toList "france".toList ["france".toList] =
      some ⟨0, 0, 0, 3/4, 3/4⟩ :=
  tie_final_score
    (fun u => if u = "u2".toList then some ⟨5, 10⟩ else none)
    (show List.lookup "u2".toList tieProducts =
      some (tieDoc "u2".toList) from rfl) (3/4)
    (by
      rw [show ((fun u => if u = "u2".toList then
          some (⟨5, 10⟩ : SearchEngine.ReviewData) else none)
          "u2".toList) = some ⟨5, 10⟩ from rfl]
      norm_num)

theorem roundTo_three_quarters : roundTo 3 (3/4) = 3/4 := by
  rw [roundTo, show (3:ℚ)/4 * 10^3 = ((750:ℕ):ℚ) by norm_num,
    round_natCast]
  norm_num

/-- Witness for C5 (amended): with distinct candidate scores (0 and
3/4), the two enumerations of the candidate set produce the same ranked
result. -/
theorem rank_results_deterministic_witness :
    SearchEngine.rank_results (fun q => q) wIndexes tieProducts
      "france".toList ["france".toList] ["u1".toList, "u2".toList] =
    SearchEngine.rank_results (fun q => q) wIndexes tieProducts
      "france".toList ["france".toList] ["u2".toList, "u1".toList] := by
  have hval : ∀ u ∈ ["u1".toList, "u2".toList],
      roundTo 3 (((SearchEngine.compute_final_score (fun q => q) wIndexes
        tieProducts u "france".toList ["france".toList]).map
          SearchEngine.Scores.final_score).getD 0) =
        (if u = "u2".toList then 3/4 else 0) := by
    intro u hu
    rcases List.mem_cons.mp hu with rfl | hu
    · rw [w_score_u1]
      rw [show ((some (⟨0,0,0,0,0⟩ : SearchEngine.Scores)).map
        SearchEngine.Scores.final_score).getD 0 = 0 from rfl]
      rw [roundTo_zero, if_neg (by decide)]
    · rw [List.mem_singleton] at hu
      subst hu
      rw [w_score_u2]
      rw [show ((some (⟨0,0,0,3/4,3/4⟩ : SearchEngine.Scores)).map
        SearchEngine.Scores.final_score).getD 0 = 3/4 from rfl]
      rw [roundTo_three_quarters, if_pos rfl]
  apply rank_results_deterministic
  · decide
  · decide
  · intro u
    constructor
    · intro h
      rcases List.mem_cons.mp h with rfl | h
      · exact List.mem_cons_of_mem _ (List.mem_singleton.mpr rfl)
      · rw [List.mem_singleton] at h
        subst h
        exact List.mem_cons_self _ _
    · intro h
      rcases List.mem_cons.mp h with rfl | h
      · exact List.mem_cons_of_mem _ (List.mem_singleton.mpr rfl)
      · rw [List.mem_singleton] at h
        subst h
        exact List.mem_cons_self _ _
  · intro u hu
    rcases List.mem_cons.mp hu with rfl | hu
    · exact ⟨_, w_score_u1⟩
    · rw [List.mem_singleton] at hu
      subst hu
      exact ⟨_, w_score_u2⟩
  · intro u hu v hv heq
    rw [hval u hu, hval v hv] at heq
    rcases List.mem_cons.mp hu with rfl | hu <;>
      rcases List.mem_cons.mp hv with rfl | hv
    · rfl
    · rw [List.mem_singleton] at hv
      subst hv
      rw [if_neg (by decide), if_pos rfl] at heq
      exact absurd heq (by norm_num)
    · rw [List.mem_singleton] at hu
      subst hu
      rw [if_pos rfl, if_neg (by decide)] at heq
      exact absurd heq (by norm_num)
    · rw [List.mem_singleton] at hu
      rw [List.mem_singleton] at hv
      rw [hu, hv]
